import Mathlib

/-!
# Verification of the talon quotation-extraction engine

A shallow embedding of `talon/quotations.py` and `talon/html_quotations.py`:
the plain-text quotation stripper (line classification, marker-sequence
boundary resolution, pre/post-processing), the HTML candidate-selection
policy, and the DFS checkpoint / subtree-excision protocol.

Python regular expressions are embedded through an explicit abstract syntax
(`RE`) together with a fueled backtracking matcher (`runRE`) that mirrors the
leftmost, greedy, backtracking semantics of `re.match`.  Each compiled pattern
of the source is transcribed into an `RE` value.
-/

set_option maxHeartbeats 2000000
set_option maxRecDepth 100000

namespace Talon

/-- Regular-expression abstract syntax.  `cls` is a positive character class
`[...]`, `ncls` a negated class `[^...]`, `anyc` is `.` (which in Python does
not match a newline), and `chi c` is a case-insensitive character literal,
used for the patterns the source compiles with `re.I`. -/
inductive RE where
  | eps : RE
  | ch : Char → RE
  | chi : Char → RE
  | cls : List Char → RE
  | ncls : List Char → RE
  | anyc : RE
  | seq : RE → RE → RE
  | alt : RE → RE → RE
  | star : RE → RE
deriving Repr, DecidableEq

/-- Concatenation of a list of regexes. -/
def RE.cat (rs : List RE) : RE := rs.foldr RE.seq RE.eps

/-- A string literal regex. -/
def RE.lit (s : String) : RE := RE.cat (s.data.map RE.ch)

/-- `r+`, desugared as `r r*` (same greedy backtracking order). -/
def RE.plus (r : RE) : RE := r.seq r.star

/-- `r?`, greedy (prefers to consume). -/
def RE.opt (r : RE) : RE := r.alt .eps

/-- `r{n}`: exactly `n` copies. -/
def RE.pow (r : RE) : Nat → RE
  | 0 => .eps
  | n+1 => r.seq (RE.pow r n)

/-- `r{0,n}`, greedy: prefers more copies first, like Python. -/
def RE.upTo (r : RE) : Nat → RE
  | 0 => .eps
  | n+1 => (r.seq (RE.upTo r n)).alt .eps

/-- `r{m,}`: at least `m` copies, greedy. -/
def RE.atLeast (r : RE) (m : Nat) : RE := (RE.pow r m).seq r.star

/-- `r{m,n}`, greedy. -/
def RE.repRange (r : RE) (m n : Nat) : RE := (RE.pow r m).seq (RE.upTo r (n - m))

/-- `a|b|c|...`: alternation over a list, tried left to right like Python. -/
def RE.alts : List RE → RE
  | [] => .eps
  | [r] => r
  | r :: rs => r.alt (RE.alts rs)

/-- Structural size of a regex, used to compute a sufficient fuel bound. -/
def RE.size : RE → Nat
  | .eps => 1
  | .ch _ => 1
  | .chi _ => 1
  | .cls _ => 1
  | .ncls _ => 1
  | .anyc => 1
  | .seq a b => a.size + b.size + 1
  | .alt a b => a.size + b.size + 1
  | .star a => a.size + 1

/-- Fueled CPS backtracking matcher.  `runRE fuel r s k` tries to match `r`
against a prefix of `s` and passes the remaining suffix to the continuation
`k`, exploring alternatives in Python order: alternation prefers the left
branch, `star` is greedy (prefers one more iteration), and an iteration of
`star` that consumes nothing terminates the loop, as in CPython. -/
def runRE : Nat → RE → List Char → (List Char → Option Nat) → Option Nat
  | 0, _, _, _ => none
  | _+1, .eps, s, k => k s
  | _+1, .ch c, s, k =>
    match s with
    | [] => none
    | x :: xs => if x = c then k xs else none
  | _+1, .chi c, s, k =>
    match s with
    | [] => none
    | x :: xs => if x.toLower = c.toLower then k xs else none
  | _+1, .cls cs, s, k =>
    match s with
    | [] => none
    | x :: xs => if cs.contains x then k xs else none
  | _+1, .ncls cs, s, k =>
    match s with
    | [] => none
    | x :: xs => if cs.contains x then none else k xs
  | _+1, .anyc, s, k =>
    match s with
    | [] => none
    | x :: xs => if x = '\n' then none else k xs
  | f+1, .seq a b, s, k => runRE f a s (fun t => runRE f b t k)
  | f+1, .alt a b, s, k => (runRE f a s k).orElse (fun _ => runRE f b s k)
  | f+1, .star a, s, k =>
    (runRE f a s (fun t => if t.length < s.length then runRE f (.star a) t k else none)).orElse
      (fun _ => k s)

/-- Fuel that is always sufficient for `runRE` on the patterns of this file. -/
def fuelFor (r : RE) (s : List Char) : Nat := (RE.size r + 2) * (s.length + 2)

/-- `re.match(r, s)`: anchored prefix match; returns `match.end()` of the
leftmost-preferred match. -/
def matchEnd (r : RE) (s : List Char) : Option Nat :=
  runRE (fuelFor r s) r s (fun t => some (s.length - t.length))

/-- `re.search(r, s) is not None`: try an anchored match at every start. -/
def reSearch (r : RE) (s : List Char) : Bool :=
  (List.range (s.length + 1)).any (fun i => (matchEnd r (s.drop i)).isSome)

/-! ## The marker-sequence patterns of process_marked_lines -/

/-- `(me*){3}` from line 199 of quotations.py. -/
def nrmP : RE := RE.pow ((RE.ch 'm').seq (RE.star (RE.ch 'e'))) 3

/-- `[te]*f` from line 205: a forward indicator preceded only by text/blank. -/
def guardP : RE := (RE.star (RE.cls ['t', 'e'])).seq (RE.ch 'f')

/-- `e*(te*)+(se*)+` from line 215 (matched against the reversed markers). -/
def p1P : RE :=
  RE.cat [RE.star (RE.ch 'e'),
          RE.plus ((RE.ch 't').seq (RE.star (RE.ch 'e'))),
          RE.plus ((RE.ch 's').seq (RE.star (RE.ch 'e')))]

/-- `e*[mfts]*((te*)+(me*)+)+[mfts]*((se*)+|(me*){2,})` from line 219:
the inline-reply exclusion (matched against the reversed markers). -/
def inlineP : RE :=
  RE.cat [RE.star (RE.ch 'e'),
          RE.star (RE.cls ['m', 'f', 't', 's']),
          RE.plus ((RE.plus ((RE.ch 't').seq (RE.star (RE.ch 'e')))).seq
                   (RE.plus ((RE.ch 'm').seq (RE.star (RE.ch 'e'))))),
          RE.star (RE.cls ['m', 'f', 't', 's']),
          (RE.plus ((RE.ch 's').seq (RE.star (RE.ch 'e')))).alt
            (RE.atLeast ((RE.ch 'm').seq (RE.star (RE.ch 'e'))) 2)]

/-- `e*(me*)+[mefts]*((se*)+|(me*){2,})` from line 224 (reversed markers). -/
def p2P : RE :=
  RE.cat [RE.star (RE.ch 'e'),
          RE.plus ((RE.ch 'm').seq (RE.star (RE.ch 'e'))),
          RE.star (RE.cls ['m', 'e', 'f', 't', 's']),
          (RE.plus ((RE.ch 's').seq (RE.star (RE.ch 'e')))).alt
            (RE.atLeast ((RE.ch 'm').seq (RE.star (RE.ch 'e'))) 2)]

/-- `e*(te*)+(me*)+.*(s)+e*(te*)+` from line 228: the signature-below-quote
fallback.  It sits between the two `markers.reverse()` calls (lines 212 and
231), so like P1 and P2 it is matched against the reversed markers. -/
def fbFullP : RE :=
  RE.cat [RE.star (RE.ch 'e'),
          RE.plus ((RE.ch 't').seq (RE.star (RE.ch 'e'))),
          RE.plus ((RE.ch 'm').seq (RE.star (RE.ch 'e'))),
          RE.star RE.anyc,
          RE.plus (RE.ch 's'),
          RE.star (RE.ch 'e'),
          RE.plus ((RE.ch 't').seq (RE.star (RE.ch 'e')))]

/-- `e*(te*)+(me*)+.*(s)+` from line 229: the match actually used when the
fallback fires. -/
def fbCutP : RE :=
  RE.cat [RE.star (RE.ch 'e'),
          RE.plus ((RE.ch 't').seq (RE.star (RE.ch 'e'))),
          RE.plus ((RE.ch 'm').seq (RE.star (RE.ch 'e'))),
          RE.star RE.anyc,
          RE.plus (RE.ch 's')]

/-! ## process_marked_lines -/

/-- The flags record written into return_flags:
`(were_lines_deleted, first_deleted_line, last_deleted_line)`. -/
structure PMLResult where
  lines : List String
  deleted : Bool
  firstDel : Int
  lastDel : Int
deriving Repr, DecidableEq

/-- `markers.replace('m', 't')` from line 200. -/
def replaceMT (ms : List Char) : List Char :=
  ms.map (fun c => if c = 'm' then 't' else c)

/-- Lines 198-200: with no splitter marker and no run of three quote-marker
groups, every quote marker is reinterpreted as text. -/
def pmlNormalize (markers0 : List Char) : List Char :=
  if ¬ markers0.contains 's' ∧ ¬ reSearch nrmP markers0 then replaceMT markers0 else markers0

/-- The end of the quotation match object computed by lines 212-231 of
process_marked_lines: P1, then the inline exclusion, then P2, then the
fallback — all matched against the reversed markers (the reversal is only
undone at line 231, after the fallback).  The inline early return and the
no-match case both yield `none`; in the source both produce the identical
`(lines, [False, -1, -1])` result. -/
def pmlQuotationEnd (markers : List Char) : Option Nat :=
  let rev := markers.reverse
  match matchEnd p1P rev with
  | some e => some e
  | none =>
    if (matchEnd inlineP rev).isSome then none
    else
      match matchEnd p2P rev with
      | some e => some e
      | none =>
        if (matchEnd fbFullP rev).isSome then matchEnd fbCutP rev
        else none

/-- Lines 196-242 of quotations.py: normalize the marker sequence, apply the
forward guard, resolve the quotation boundary and slice the lines. -/
def process_marked_lines (lines : List String) (markers0 : List Char) : PMLResult :=
  -- if there are no splitter there should be no markers, unless more than 3
  let markers := pmlNormalize markers0
  -- forward guard: an f before the first split means a forward
  if (matchEnd guardP markers).isSome then ⟨lines, false, -1, -1⟩
  else
    match pmlQuotationEnd markers with
    | none => ⟨lines, false, -1, -1⟩
    | some qe =>
      let n := markers.length
      let start := n - qe + 1
      let stop := n - 1
      ⟨lines.take start ++ lines.drop stop, true, (start : Int), (stop : Int)⟩

/-! ## Line classification: the patterns of mark_message_lines -/

/-- A case-insensitive string literal (for patterns compiled with `re.I`). -/
def RE.litI (s : String) : RE := RE.cat (s.data.map RE.chi)

/-- Python `\s` for byte strings: `[ \t\n\r\v\f]`. -/
def wsChars : List Char := [' ', '\t', '\n', '\r', '\x0b', '\x0c']

/-- Python `\d`. -/
def digitChars : List Char := ['0', '1', '2', '3', '4', '5', '6', '7', '8', '9']

/-- `RE_FWD = (([-]+[ ]*Forwarded message[ ]*[-]+)|(Begin forwarded message:))`,
compiled with `re.I | re.M`. -/
def RE_FWD : RE :=
  (RE.cat [RE.plus (RE.ch '-'), RE.star (RE.ch ' '), RE.litI "Forwarded message",
           RE.star (RE.ch ' '), RE.plus (RE.ch '-')]).alt
    (RE.litI "Begin forwarded message:")

/-- `QUOT_PATTERN = ^>+ ?` (the anchor is implicit in `re.match`). -/
def QUOT_PATTERN : RE := (RE.plus (RE.ch '>')).seq (RE.opt (RE.ch ' '))

/-- Splitter 1: `[\s ]*[-]+[ ]*(Original|Reply) Message[ ]*[-]+` with `re.I`. -/
def splitOrig : RE :=
  RE.cat [RE.star (RE.cls wsChars), RE.plus (RE.ch '-'), RE.star (RE.ch ' '),
          (RE.litI "Original").alt (RE.litI "Reply"), RE.ch ' ', RE.litI "Message",
          RE.star (RE.ch ' '), RE.plus (RE.ch '-')]

/-- Splitter 2: `(\d+/\d+/\d+|\d+\.\d+\.\d+).*@`. -/
def splitDateAt : RE :=
  RE.cat [((RE.cat [RE.plus (RE.cls digitChars), RE.ch '/', RE.plus (RE.cls digitChars),
                    RE.ch '/', RE.plus (RE.cls digitChars)]).alt
           (RE.cat [RE.plus (RE.cls digitChars), RE.ch '.', RE.plus (RE.cls digitChars),
                    RE.ch '.', RE.plus (RE.cls digitChars)])),
          RE.star RE.anyc, RE.ch '@']

/-- `RE_ON_DATE_SMB_WROTE = -*[ ]?On[ ].*,(.*\n){0,2}.*(wrote|sent):`
(case sensitive; the splitter may span up to 3 physical lines). -/
def RE_ON_DATE : RE :=
  RE.cat [RE.star (RE.ch '-'), RE.opt (RE.ch ' '), RE.lit "On ",
          RE.star RE.anyc, RE.ch ',',
          RE.upTo ((RE.star RE.anyc).seq (RE.ch '\n')) 2,
          RE.star RE.anyc, (RE.lit "wrote").alt (RE.lit "sent"), RE.ch ':']

/-- `RE_ON_DATE_SMB_WROTE_GOOGLE` (day and month names, with `re.I`).
The `Oct(ober?)` alternative is transcribed as in the source: the group after
`Oct` is not optional, only its final `r` is. -/
def RE_ON_DATE_GOOGLE : RE :=
  RE.cat
    [RE.litI "On ",
     RE.alts
       [(RE.litI "Mon").seq (RE.opt (RE.litI "day")),
        (RE.litI "Tue").seq ((RE.opt (RE.litI "s")).seq (RE.opt (RE.litI "day"))),
        (RE.litI "Wed").seq (RE.opt (RE.litI "nesday")),
        (RE.litI "Thur").seq (RE.opt (RE.litI "sday")),
        (RE.litI "Fri").seq (RE.opt (RE.litI "day")),
        (RE.litI "Sat").seq (RE.opt (RE.litI "urday")),
        (RE.litI "Sun").seq (RE.opt (RE.litI "day"))],
     RE.lit ", ",
     RE.alts
       [(RE.litI "Jan").seq (RE.opt (RE.litI "uary")),
        (RE.litI "Feb").seq (RE.opt (RE.litI "ruary")),
        (RE.litI "Mar").seq (RE.opt (RE.litI "ch")),
        (RE.litI "Apr").seq (RE.opt (RE.litI "il")),
        RE.litI "May",
        (RE.litI "Jun").seq (RE.opt (RE.litI "e")),
        (RE.litI "Jul").seq (RE.opt (RE.litI "y")),
        (RE.litI "Aug").seq (RE.opt (RE.litI "ust")),
        (RE.litI "Sep").seq ((RE.opt (RE.litI "t")).seq (RE.opt (RE.litI "ember"))),
        (RE.litI "Oct").seq ((RE.litI "obe").seq (RE.opt (RE.chi 'r'))),
        (RE.litI "Nov").seq (RE.opt (RE.litI "ember")),
        (RE.litI "Dec").seq (RE.opt (RE.litI "ember"))],
     RE.ch ' ',
     RE.repRange (RE.cls digitChars) 1 2, RE.lit ", ", RE.pow (RE.cls digitChars) 4,
     RE.lit " at ", RE.star (RE.cls (digitChars ++ [':'])), RE.ch ' ',
     (RE.litI "PM").alt (RE.litI "AM"), RE.lit ", ", RE.star RE.anyc, RE.litI " wrote:"]

/-- Splitter 5: `(_+\r?\n)?[\s]*(:?[*]?From|Date|Sent|Subject|To|Cc):[*]? .*`. -/
def splitHeader : RE :=
  RE.cat [RE.opt (RE.cat [RE.plus (RE.ch '_'), RE.opt (RE.ch '\r'), RE.ch '\n']),
          RE.star (RE.cls wsChars),
          RE.alts
            [RE.cat [RE.opt (RE.ch ':'), RE.opt (RE.ch '*'), RE.lit "From"],
             RE.lit "Date", RE.lit "Sent", RE.lit "Subject", RE.lit "To", RE.lit "Cc"],
          RE.ch ':', RE.opt (RE.ch '*'), RE.ch ' ', RE.star RE.anyc]

/-- Splitter 6:
`\S{3,10}, \d\d? \S{3,10} 20\d\d,? \d\d?:\d\d(:\d\d)?( \S+){3,6}@\S+:`. -/
def splitDateHdr : RE :=
  RE.cat [RE.repRange (RE.ncls wsChars) 3 10, RE.lit ", ",
          RE.cls digitChars, RE.opt (RE.cls digitChars), RE.ch ' ',
          RE.repRange (RE.ncls wsChars) 3 10, RE.lit " 20",
          RE.cls digitChars, RE.cls digitChars, RE.opt (RE.ch ','), RE.ch ' ',
          RE.cls digitChars, RE.opt (RE.cls digitChars), RE.ch ':',
          RE.cls digitChars, RE.cls digitChars,
          RE.opt (RE.cat [RE.ch ':', RE.cls digitChars, RE.cls digitChars]),
          RE.repRange ((RE.ch ' ').seq (RE.plus (RE.ncls wsChars))) 3 6,
          RE.ch '@', RE.plus (RE.ncls wsChars), RE.ch ':']

/-- `SPLITTER_PATTERNS`, in the source's order. -/
def SPLITTER_PATTERNS : List RE :=
  [splitOrig, splitDateAt, RE_ON_DATE, RE_ON_DATE_GOOGLE, splitHeader, splitDateHdr]

/-- `RE_LINK = <(http://[^>]*)>`. -/
def RE_LINK : RE :=
  RE.cat [RE.ch '<', RE.lit "http://", RE.star (RE.ncls ['>']), RE.ch '>']

/-- `RE_NORMALIZED_LINK = @@(http://[^>@]*)@@`. -/
def RE_NORMALIZED_LINK : RE :=
  RE.cat [RE.lit "@@", RE.lit "http://", RE.star (RE.ncls ['>', '@']), RE.lit "@@"]

def SPLITTER_MAX_LINES : Nat := 5

def MAX_LINES_COUNT : Nat := 1000

/-! ## String utilities mirroring the Python built-ins used by the source -/

/-- Python `str.strip()` whitespace test. -/
def pyIsSpace (c : Char) : Bool := wsChars.contains c

/-- Python `str.strip()`. -/
def pyStrip (s : String) : String :=
  String.mk (((s.data.dropWhile pyIsSpace).reverse.dropWhile pyIsSpace).reverse)

/-- Worker for `pySplitlines`. -/
def slGo : List Char → List Char → List String
  | [], acc => if acc.isEmpty then [] else [String.mk acc.reverse]
  | '\r' :: '\n' :: rest, acc => String.mk acc.reverse :: slGo rest []
  | '\r' :: rest, acc => String.mk acc.reverse :: slGo rest []
  | '\n' :: rest, acc => String.mk acc.reverse :: slGo rest []
  | c :: rest, acc => slGo rest (c :: acc)

/-- Python 2 `str.splitlines()`: split on `\n`, `\r` and `\r\n`, no final
empty line for a trailing terminator. -/
def pySplitlines (s : String) : List String := slGo s.data []

/-! ## mark_message_lines -/

/-- `is_empty` (line 122): blank after stripping. -/
def is_empty (line : String) : Bool := pyStrip line = ""

/-- `is_forward` (line 117): `RE_FWD.search(line)`. -/
def is_forward (line : String) : Bool := reSearch RE_FWD line.data

/-- `is_quote` (line 127): `QUOT_PATTERN.match(line)`. -/
def is_quote (line : String) : Bool := (matchEnd QUOT_PATTERN line.data).isSome

/-- `is_splitter` (line 132): the first splitter pattern that matches a prefix
of the (up to 5-line) window; returns the matched text `matcher.group()`. -/
def is_splitter (s : String) : Option (List Char) :=
  match SPLITTER_PATTERNS.findSome? (fun r => matchEnd r s.data) with
  | some e => some (s.data.take e)
  | none => none

/-- Worker for `mark_message_lines`: one marker per line, with a splitter
match marking every physical line it spans and skipping past them.  The fuel
argument only makes the recursion structural; every step consumes at least
one line, so `mark_message_lines` supplies `lines.length` which never runs
out. -/
def markGo : Nat → List String → List Char
  | 0, _ => []
  | _, [] => []
  | fuel+1, l :: rest =>
    if is_empty l then 'e' :: markGo fuel rest
    else if is_forward l then 'f' :: markGo fuel rest
    else if is_quote l then 'm' :: markGo fuel rest
    else
      match is_splitter (String.intercalate "\n" (l :: rest.take (SPLITTER_MAX_LINES - 1))) with
      | some g =>
        let k := max 1 (pySplitlines (String.mk g)).length
        List.replicate k 's' ++ markGo fuel (rest.drop (k - 1))
      | none => 't' :: markGo fuel rest

/-- Lines 143-182 of quotations.py. -/
def mark_message_lines (lines : List String) : List Char := markGo lines.length lines

/-! ## preprocess / postprocess / extract_from_plain -/

/-- `re.sub` with a replacement function that may inspect the original string
and the global match position (as the source's closures do).  Scans left to
right; our patterns never match the empty string. -/
def pySubGo (r : RE) (repl : Nat → List Char → List Char) :
    Nat → Nat → List Char → List Char
  | 0, _, s => s
  | _, _, [] => []
  | fuel+1, i, c :: rest =>
    match matchEnd r (c :: rest) with
    | some e =>
      if e = 0 then c :: pySubGo r repl fuel (i + 1) rest
      else repl i ((c :: rest).take e) ++ pySubGo r repl fuel (i + e) ((c :: rest).drop e)
    | none => c :: pySubGo r repl fuel (i + 1) rest

def pySub (r : RE) (repl : Nat → List Char → List Char) (s : String) : String :=
  String.mk (pySubGo r repl s.data.length 0 s.data)

/-- The character `msg_body[newline_index + 1]` where
`newline_index = msg_body[:start].rfind("\n")` (which is `-1` if absent). -/
def charAfterLastNL (orig : List Char) (start : Nat) : Char :=
  let pre := orig.take start
  if '\n' ∈ pre then orig.getD (pre.length - pre.reverse.indexOf '\n') ' '
  else orig.getD 0 ' '

/-- `link_wrapper` from preprocess (lines 255-260). -/
def linkWrapper (orig : List Char) (start : Nat) (matched : List Char) : List Char :=
  if charAfterLastNL orig start = '>' then matched
  else '@' :: '@' :: (matched.drop 1).dropLast ++ ['@', '@']

/-- `splitter_wrapper` from preprocess (lines 264-269). -/
def splitterWrapper (orig : List Char) (delimiter : String) (start : Nat)
    (matched : List Char) : List Char :=
  if start ≠ 0 ∧ orig.getD (start - 1) ' ' ≠ '\n' then delimiter.data ++ matched
  else matched

/-- `preprocess` (lines 245-274). -/
def preprocess (msg_body : String) (delimiter : String) (isPlain : Bool := true) : String :=
  let b1 := pySub RE_LINK (linkWrapper msg_body.data) msg_body
  if isPlain then pySub RE_ON_DATE (splitterWrapper b1.data delimiter) b1 else b1

/-- `postprocess` (lines 277-282): restore masked links, then strip. -/
def postprocess (msg_body : String) : String :=
  pyStrip (pySub RE_NORMALIZED_LINK
    (fun _ matched => '<' :: ((matched.drop 2).dropLast.dropLast) ++ ['>']) msg_body)

/-- Modelled from the spec: `talon.utils.get_delimiter` is not under src/
(the spec lists "detection of the dominant line-delimiter style" as a utility
helper); it returns the first line delimiter (`\r\n` or `\n`) found in the
body, defaulting to `\n`. -/
def gdGo : List Char → String
  | [] => "\n"
  | '\r' :: '\n' :: _ => "\r\n"
  | '\n' :: _ => "\n"
  | _ :: rest => gdGo rest

def get_delimiter (s : String) : String := gdGo s.data

/-- `extract_from_plain` (lines 285-303). -/
def extract_from_plain (msg_body : String) : String :=
  let stripped_text := msg_body
  let delimiter := get_delimiter msg_body
  let body := preprocess msg_body delimiter
  let lines := pySplitlines body
  if lines.length > MAX_LINES_COUNT then stripped_text
  else
    let markers := mark_message_lines lines
    let result := process_marked_lines lines markers
    postprocess (String.intercalate delimiter result.lines)

/-- Minimum length of any string in the language of `r`. -/
def RE.minLen : RE → Nat
  | .eps => 0
  | .ch _ => 1
  | .chi _ => 1
  | .cls _ => 1
  | .ncls _ => 1
  | .anyc => 1
  | .seq a b => a.minLen + b.minLen
  | .alt a b => min a.minLen b.minLen
  | .star _ => 0

/-- `RE.needs c r = true` certifies that every string in the language of `r`
contains the character `c`. -/
def RE.needs (c : Char) : RE → Bool
  | .eps => false
  | .ch c' => c' = c
  | .chi _ => false
  | .cls _ => false
  | .ncls _ => false
  | .anyc => false
  | .seq a b => a.needs c || b.needs c
  | .alt a b => a.needs c && b.needs c
  | .star _ => false

/-- `RE.within ok r = true` certifies that every character of every string in
the language of `r` satisfies `ok`. -/
def RE.within (ok : Char → Bool) : RE → Bool
  | .eps => true
  | .ch c => ok c
  | .chi _ => false
  | .cls cs => cs.all ok
  | .ncls _ => false
  | .anyc => false
  | .seq a b => a.within ok && b.within ok
  | .alt a b => a.within ok && b.within ok
  | .star a => a.within ok

/-- Does the string start with three quote markers? -/
def startsMMM : List Char → Bool
  | 'm' :: 'm' :: 'm' :: _ => true
  | _ => false

/-- Scanner for three consecutive quote markers (`mmm` as a factor). -/
def hasMMM : List Char → Bool
  | [] => false
  | c :: t => startsMMM (c :: t) || hasMMM t

/-! ## extract_from: the top-level dispatcher (lines 106-115) -/

/-- The outcome of a Python call: a normal return or a raised exception. -/
inductive PyResult where
  | ok : String → PyResult
  | exn : String → PyResult
deriving Repr, DecidableEq

/-- Lines 106-115 of quotations.py: dispatch on content type inside
`try/except Exception`, which logs and falls through to `return msg_body`.
The two extractors are parameters so the theorem quantifies over every
possible behavior (normal return or raised exception); an unknown content
type falls through to returning the body as well. -/
def extract_from (plainF htmlF : String → PyResult) (msg_body : String)
    (content_type : String) : String :=
  if content_type = "text/plain" then
    match plainF msg_body with
    | .ok s => s
    | .exn _ => msg_body
  else if content_type = "text/html" then
    match htmlF msg_body with
    | .ok s => s
    | .exn _ => msg_body
  else msg_body

/-- Abstract outcome of one cutting strategy run on its own deep copy of the
parsed tree: whether the method reported success, the rendered plain-text
length of the mutated copy, and its serialization. -/
structure CutCandidate where
  success : Bool
  textLength : Nat
  serialized : String
deriving Repr, DecidableEq

/-- Lines 341-348: keep a `(length, serialization)` pair for every candidate
whose method succeeded and whose rendered length is non-zero. -/
def collectResults (cands : List CutCandidate) : List (Nat × String) :=
  cands.filterMap fun c =>
    if c.success = true ∧ c.textLength ≠ 0 then some (c.textLength, c.serialized) else none

/-- `min(results, key=lambda x: x[0])` (line 351): Python's min keeps the
current best and replaces it only on a strictly smaller key, so on ties the
first element in iteration order wins. -/
def pyMinByFirst (x : Nat × String) (xs : List (Nat × String)) : Nat × String :=
  xs.foldl (fun best c => if c.1 < best.1 then c else best) x

/-- Lines 321-355 of extract_from_html over the abstract candidate outcomes:
blank bodies and parse failures short-circuit to the body; otherwise the
serialization of the first shortest successful non-empty candidate is
returned, and with no candidate the original body is returned unmodified. -/
def extract_from_html (msg_body : String) (parse_ok : Bool)
    (cands : List CutCandidate) : String :=
  if pyStrip msg_body = "" then msg_body
  else if parse_ok = false then msg_body
  else
    match collectResults cands with
    | [] => msg_body
    | r :: rs => (pyMinByFirst r rs).2

/-! ## The HTML tree model and add_checkpoint (html_quotations.py lines 21-44) -/

mutual
/-- An lxml element: a flag marking the placeholder element (modelling Python
object identity with the placeholder that delete_quotation_tags may insert),
the optional `.text` before the first child, the ordered children, and the
optional `.tail` text after the closing tag. -/
inductive Elem where
  | mk : Bool → Option String → ElemList → Option String → Elem
  deriving DecidableEq
inductive ElemList where
  | nil : ElemList
  | cons : Elem → ElemList → ElemList
  deriving DecidableEq
end

mutual
/-- Number of nodes of the tree (each node contributes two checkpoint
events: one for its text, one for its tail). -/
def Elem.size : Elem → Nat
  | .mk _ _ cs _ => 1 + ElemList.size cs
def ElemList.size : ElemList → Nat
  | .nil => 0
  | .cons e es => Elem.size e + ElemList.size es
end

/-- The sentinel written for counter value c: CHECKPOINT_PREFIX, the decimal
counter, CHECKPOINT_SUFFIX (lines 13-14). -/
def sentinelTok (c : Nat) : String := "#!%!" ++ toString c ++ "!%!#"

/-- Lines 25-30 and 36-41: append the sentinel to the existing text when it
is truthy, else set the field to the sentinel alone; both cases equal
(text or empty) concatenated with the sentinel. -/
def addTok (t : Option String) (c : Nat) : Option String :=
  some ((t.getD "") ++ sentinelTok c)

mutual
/-- Lines 21-44: stamp the node text with the incoming counter, recurse over
the children left to right, stamp the tail with the counter the recursion
returns, and return the counter plus one. -/
def add_checkpoint : Elem → Nat → Elem × Nat
  | .mk ph text cs tail, counter =>
    let r := add_checkpoint_list cs (counter + 1)
    (.mk ph (addTok text counter) r.1 (addTok tail r.2), r.2 + 1)
def add_checkpoint_list : ElemList → Nat → ElemList × Nat
  | .nil, counter => (.nil, counter)
  | .cons e es, counter =>
    let r1 := add_checkpoint e counter
    let r2 := add_checkpoint_list es r1.2
    (.cons r1.1 r2.1, r2.2)
end

mutual
/-- The text and tail fields of the tree in DFS event order: a node's text,
then its children's events, then the node's tail. This is the order in which
add_checkpoint visits the fields. -/
def Elem.flatTexts : Elem → List (Option String)
  | .mk _ text cs tail => text :: (ElemList.flatTexts cs ++ [tail])
def ElemList.flatTexts : ElemList → List (Option String)
  | .nil => []
  | .cons e es => Elem.flatTexts e ++ ElemList.flatTexts es
end

/-! ## delete_quotation_tags (html_quotations.py lines 47-96) -/

/-- Whether the element is the placeholder (Python `child is placeholder`). -/
def Elem.isPh : Elem → Bool
  | .mk b _ _ _ => b

/-- The placeholder element the caller supplies: a fresh element with no
text, children or tail. -/
def placeholderE : Elem := .mk true none .nil none

/-- Rebuild an ElemList from a Lean list of elements. -/
def toEL : List Elem → ElemList
  | [] => .nil
  | e :: es => .cons e (toEL es)

mutual
/-- Removing the placeholder from a subtree: lxml's insert/append/addprevious
MOVE the single placeholder element, so every placement elsewhere first
detaches it from wherever it currently sits. -/
def scrubE : Elem → Elem
  | .mk b t cs tl => .mk b t (scrubL cs) tl
def scrubL : ElemList → ElemList
  | .nil => .nil
  | .cons e es => if Elem.isPh e then scrubL es else .cons (scrubE e) (scrubL es)
end

mutual
/-- Number of placeholder elements in a subtree. -/
def phCountE : Elem → Nat
  | .mk b _ cs _ => (if b then 1 else 0) + phCountL cs
def phCountL : ElemList → Nat
  | .nil => 0
  | .cons e es => phCountE e + phCountL es
end

/-- Total placeholder count of a list of subtrees. -/
def phSum (l : List Elem) : Nat := (l.map phCountE).sum

/-- Placeholder count of processed children tagged with their
is-in-quotation flag. -/
def phPairs (l : List (Elem × Bool)) : Nat := phSum (l.map (fun p => p.1))

/-- Scrub the placeholder out of every tagged child. -/
def scrubPairs (l : List (Elem × Bool)) : List (Elem × Bool) :=
  l.map (fun p => (scrubE p.1, p.2))

/-- Line 91, `quotation_children[0].addprevious(placeholder)`: insert the
placeholder immediately before the first child tagged as in-quotation. -/
def insPhQ : List (Elem × Bool) → List (Elem × Bool)
  | [] => []
  | (e, q) :: rest =>
    if q then (placeholderE, false) :: (e, q) :: rest
    else (e, q) :: insPhQ rest

/-- The final children list of one node of recursive_helper (lines 52-94).
`kids` are the recursively processed children tagged with their
is-in-quotation result. entryIns is the insert at position 0 on a flagged
text (lines 55-58); appendIns the append on a flagged tail with no quotation
children (lines 75-78); rescueIns the addprevious before removing quotation
children (lines 90-93). A node whose text and tail are both flagged returns
early (lines 86-87) and keeps all children; otherwise quotation children are
removed. Each insertion moves the unique placeholder, so the branches that
insert scrub it from the children first. -/
def delQKids (textQ tailQ flag : Bool) (kids : List (Elem × Bool)) : List Elem :=
  let entryIns := textQ && flag
  let flag1 := flag && !textQ
  let qEmpty := kids.all (fun p => !p.2)
  let appendIns := tailQ && flag1 && qEmpty
  let rescueIns := flag1 && !appendIns && !qEmpty
  if textQ && tailQ then
    (if entryIns then [placeholderE] else []) ++ kids.map (fun p => p.1)
  else
    let kids2 :=
      if rescueIns then insPhQ (scrubPairs kids)
      else if appendIns then scrubPairs kids ++ [(placeholderE, false)]
      else kids
    (if entryIns then [placeholderE] else []) ++
      (kids2.filter (fun p => !p.2)).map (fun p => p.1)

/-- Whether any insertion of the placeholder happened during this node's
call, its children included. Python passes insert_placeholder down by value
and never threads it back up (line 69), so a later sibling or the parent can
insert again; the placeholder then moves to the newest position. -/
def delQPlaced (textQ tailQ flag kidsPlaced : Bool) (kids : List (Elem × Bool)) : Bool :=
  let flag1 := flag && !textQ
  let qEmpty := kids.all (fun p => !p.2)
  let appendIns := tailQ && flag1 && qEmpty
  (textQ && flag) || kidsPlaced || appendIns || (flag1 && !appendIns && !qEmpty)

/-- Assembled result of recursive_helper at one node: the rebuilt node (text
and tail cleared when flagged, lines 59 and 79), the counter after the
subtree, the is-in-quotation result (line 84), and whether a placement
happened in the subtree. -/
def delQNode (b : Bool) (text tl : Option String) (textQ tailQ flag kidsPlaced : Bool)
    (kids : List (Elem × Bool)) (c3 : Nat) : Elem × Nat × Bool × Bool :=
  (Elem.mk b (if textQ then some "" else text) (toEL (delQKids textQ tailQ flag kids))
      (if tailQ then some "" else tl),
    c3, textQ && tailQ, delQPlaced textQ tailQ flag kidsPlaced kids)

mutual
/-- recursive_helper (lines 52-94): the text checkpoint is read at the
incoming counter, the children consume the following counters, the tail
checkpoint is read after them (quotation_checkpoints indexed by counter;
out-of-range reads default to false here, where Python would raise). In
delQList, a placement in a LATER sibling moves the placeholder out of an
earlier one, hence the scrub of the earlier result. -/
def delQ (cps : List Bool) : Elem → Nat → Bool → Elem × Nat × Bool × Bool
  | .mk b text cs tail, c, flag =>
    let textQ := cps.getD c false
    let r := delQList cps cs (c + 1) (flag && !textQ)
    delQNode b text tail textQ (cps.getD r.2.1 false) flag r.2.2 r.1 (r.2.1 + 1)
def delQList (cps : List Bool) : ElemList → Nat → Bool → List (Elem × Bool) × Nat × Bool
  | .nil, c, _ => ([], c, false)
  | .cons e es, c, flag =>
    let re := delQ cps e c flag
    let rest := delQList cps es re.2.1 flag
    ((if rest.2.2 then scrubE re.1 else re.1, re.2.2.1) :: rest.1, rest.2.1,
      re.2.2.2 || rest.2.2)
end

/-- Lines 47-96: run recursive_helper from counter 0; the flag is
`placeholder != None`. The mutated root is the result. -/
def delete_quotation_tags (html_note : Elem) (quotation_checkpoints : List Bool)
    (hasPh : Bool) : Elem :=
  (delQ quotation_checkpoints html_note 0 hasPh).1

-- quick sanity evaluation of the two counterexample scenarios
/-- A five-node tree: root ceR9 with children ceX9 and ceY9, which hold one
child each (ceA9 and ceB9). The checkpoint flags ceCps9 mark exactly ceA9
and ceB9 (text and tail each) as quotation, so both are removed. -/
def ceA9 : Elem := .mk false (some "a") .nil (some "ta")
def ceX9 : Elem := .mk false (some "x") (.cons ceA9 .nil) (some "tx")
def ceB9 : Elem := .mk false (some "b") .nil (some "tb")
def ceY9 : Elem := .mk false (some "y") (.cons ceB9 .nil) (some "ty")
def ceR9 : Elem := .mk false (some "r") (.cons ceX9 (.cons ceY9 .nil)) none
def ceCps9 : List Bool :=
  [false, false, true, true, false, false, true, true, false, false]

/-! ## Language semantics of `RE` and soundness of the matcher -/

/-- Declarative semantics: `Matches p r` says the string `p` is in the
language of `r`. -/
inductive Matches : List Char → RE → Prop where
  | eps : Matches [] .eps
  | ch (c : Char) : Matches [c] (.ch c)
  | chi (x c : Char) : x.toLower = c.toLower → Matches [x] (.chi c)
  | cls (x : Char) (cs : List Char) : cs.contains x = true → Matches [x] (.cls cs)
  | ncls (x : Char) (cs : List Char) : cs.contains x = false → Matches [x] (.ncls cs)
  | anyc (x : Char) : x ≠ '\n' → Matches [x] .anyc
  | seq {p q : List Char} {a b : RE} :
      Matches p a → Matches q b → Matches (p ++ q) (.seq a b)
  | altL {p : List Char} {a b : RE} : Matches p a → Matches p (.alt a b)
  | altR {p : List Char} {a b : RE} : Matches p b → Matches p (.alt a b)
  | starNil (a : RE) : Matches [] (.star a)
  | starCons {p q : List Char} {a : RE} :
      Matches p a → Matches q (.star a) → Matches (p ++ q) (.star a)

/-- Soundness of the backtracking matcher: a successful run decomposes the
input into a matched prefix in the pattern's language and a suffix accepted
by the continuation. -/
theorem runRE_sound (fuel : Nat) :
    ∀ (r : RE) (s : List Char) (k : List Char → Option Nat) (n : Nat),
      runRE fuel r s k = some n →
      ∃ p q, s = p ++ q ∧ Matches p r ∧ k q = some n := by
  induction fuel with
  | zero => intro r s k n h; simp [runRE] at h
  | succ f ih =>
    intro r s k n h
    cases r with
    | eps => exact ⟨[], s, rfl, Matches.eps, h⟩
    | ch c =>
      cases s with
      | nil => simp [runRE] at h
      | cons x xs =>
        simp only [runRE] at h
        split at h
        · rename_i hx; subst hx; exact ⟨[x], xs, rfl, Matches.ch x, h⟩
        · exact absurd h (by simp)
    | chi c =>
      cases s with
      | nil => simp [runRE] at h
      | cons x xs =>
        simp only [runRE] at h
        split at h
        · rename_i hx; exact ⟨[x], xs, rfl, Matches.chi x c hx, h⟩
        · exact absurd h (by simp)
    | cls cs =>
      cases s with
      | nil => simp [runRE] at h
      | cons x xs =>
        simp only [runRE] at h
        split at h
        · rename_i hx; exact ⟨[x], xs, rfl, Matches.cls x cs (by simpa using hx), h⟩
        · exact absurd h (by simp)
    | ncls cs =>
      cases s with
      | nil => simp [runRE] at h
      | cons x xs =>
        simp only [runRE] at h
        split at h
        · exact absurd h (by simp)
        · rename_i hx; exact ⟨[x], xs, rfl, Matches.ncls x cs (by simpa using hx), h⟩
    | anyc =>
      cases s with
      | nil => simp [runRE] at h
      | cons x xs =>
        simp only [runRE] at h
        split at h
        · exact absurd h (by simp)
        · rename_i hx; exact ⟨[x], xs, rfl, Matches.anyc x hx, h⟩
    | seq a b =>
      simp only [runRE] at h
      obtain ⟨p, q, hs, hp, hk⟩ := ih a s _ n h
      obtain ⟨p₂, q₂, hq, hp₂, hk₂⟩ := ih b q k n hk
      exact ⟨p ++ p₂, q₂, by rw [hs, hq, List.append_assoc], Matches.seq hp hp₂, hk₂⟩
    | alt a b =>
      simp only [runRE] at h
      cases hA : runRE f a s k with
      | some m =>
        rw [hA] at h; simp [Option.orElse] at h; subst h
        obtain ⟨p, q, hs, hp, hk⟩ := ih a s k m hA
        exact ⟨p, q, hs, Matches.altL hp, hk⟩
      | none =>
        rw [hA] at h; simp [Option.orElse] at h
        obtain ⟨p, q, hs, hp, hk⟩ := ih b s k n h
        exact ⟨p, q, hs, Matches.altR hp, hk⟩
    | star a =>
      simp only [runRE] at h
      cases hA : runRE f a s
          (fun t => if t.length < s.length then runRE f (.star a) t k else none) with
      | some m =>
        rw [hA] at h; simp [Option.orElse] at h; subst h
        obtain ⟨p, q, hs, hp, hk⟩ := ih a s _ m hA
        by_cases hlt : q.length < s.length
        · rw [if_pos hlt] at hk
          obtain ⟨p₂, q₂, hq, hp₂, hk₂⟩ := ih (.star a) q k m hk
          exact ⟨p ++ p₂, q₂, by rw [hs, hq, List.append_assoc],
                 Matches.starCons hp hp₂, hk₂⟩
        · rw [if_neg hlt] at hk; exact absurd hk (by simp)
      | none =>
        rw [hA] at h; simp [Option.orElse] at h
        exact ⟨[], s, rfl, Matches.starNil a, h⟩

theorem Matches.minLen_le {p : List Char} {r : RE} (h : Matches p r) :
    RE.minLen r ≤ p.length := by
  induction h with
  | eps => simp [RE.minLen]
  | ch c => simp [RE.minLen]
  | chi x c h => simp [RE.minLen]
  | cls x cs h => simp [RE.minLen]
  | ncls x cs h => simp [RE.minLen]
  | anyc x h => simp [RE.minLen]
  | seq h₁ h₂ ih₁ ih₂ => simp only [RE.minLen, List.length_append]; omega
  | altL h ih => simp only [RE.minLen]; omega
  | altR h ih => simp only [RE.minLen]; omega
  | starNil a => simp [RE.minLen]
  | starCons h₁ h₂ ih₁ ih₂ => simp [RE.minLen]

theorem Matches.mem_of_needs {c : Char} {p : List Char} {r : RE}
    (h : Matches p r) (hn : RE.needs c r = true) : c ∈ p := by
  induction h with
  | eps => simp [RE.needs] at hn
  | ch c' => simp [RE.needs] at hn; simp [hn]
  | chi x c' h => simp [RE.needs] at hn
  | cls x cs h => simp [RE.needs] at hn
  | ncls x cs h => simp [RE.needs] at hn
  | anyc x h => simp [RE.needs] at hn
  | seq h₁ h₂ ih₁ ih₂ =>
    simp only [RE.needs, Bool.or_eq_true] at hn
    rcases hn with hn | hn
    · exact List.mem_append_left _ (ih₁ hn)
    · exact List.mem_append_right _ (ih₂ hn)
  | altL h ih => simp only [RE.needs, Bool.and_eq_true] at hn; exact ih hn.1
  | altR h ih => simp only [RE.needs, Bool.and_eq_true] at hn; exact ih hn.2
  | starNil a => simp [RE.needs] at hn
  | starCons h₁ h₂ ih₁ ih₂ => simp [RE.needs] at hn

theorem Matches.ok_of_within {ok : Char → Bool} {p : List Char} {r : RE}
    (h : Matches p r) (hw : RE.within ok r = true) : ∀ c ∈ p, ok c = true := by
  induction h with
  | eps => simp
  | ch c => simp [RE.within] at hw; simpa using hw
  | chi x c h => simp [RE.within] at hw
  | cls x cs h =>
    intro d hd
    simp only [List.mem_singleton] at hd
    simp only [RE.within, List.all_eq_true] at hw
    exact hd ▸ hw x (by simpa using h)
  | ncls x cs h => simp [RE.within] at hw
  | anyc x h => simp [RE.within] at hw
  | seq h₁ h₂ ih₁ ih₂ =>
    simp only [RE.within, Bool.and_eq_true] at hw
    intro d hd
    rcases List.mem_append.mp hd with hd | hd
    · exact ih₁ hw.1 d hd
    · exact ih₂ hw.2 d hd
  | altL h ih => simp only [RE.within, Bool.and_eq_true] at hw; exact ih hw.1
  | altR h ih => simp only [RE.within, Bool.and_eq_true] at hw; exact ih hw.2
  | starNil a => simp
  | starCons h₁ h₂ ih₁ ih₂ =>
    simp only [RE.within] at hw
    intro d hd
    rcases List.mem_append.mp hd with hd | hd
    · exact ih₁ hw d hd
    · exact ih₂ hw d hd

/-- A successful `matchEnd` yields a language-level decomposition, and the
reported end is the length of the matched prefix. -/
theorem matchEnd_some {r : RE} {s : List Char} {n : Nat} (h : matchEnd r s = some n) :
    ∃ p q, s = p ++ q ∧ Matches p r ∧ n = p.length := by
  obtain ⟨p, q, hs, hp, hk⟩ := runRE_sound _ r s _ n h
  refine ⟨p, q, hs, hp, ?_⟩
  have hlen : s.length = p.length + q.length := by rw [hs, List.length_append]
  simp only [Option.some.injEq] at hk
  omega

theorem matchEnd_bounds {r : RE} {s : List Char} {n : Nat} (h : matchEnd r s = some n) :
    RE.minLen r ≤ n ∧ n ≤ s.length := by
  obtain ⟨p, q, hs, hp, hn⟩ := matchEnd_some h
  subst hn
  refine ⟨hp.minLen_le, ?_⟩
  rw [hs, List.length_append]; omega

/-- A pattern that needs a character cannot match inside a string lacking
that character. -/
theorem matchEnd_none_of_missing {r : RE} {s : List Char} {c : Char}
    (hn : RE.needs c r = true) (hc : c ∉ s) : matchEnd r s = none := by
  cases h : matchEnd r s with
  | none => rfl
  | some n =>
    obtain ⟨p, q, hs, hp, _⟩ := matchEnd_some h
    exact absurd (hs ▸ List.mem_append_left q (hp.mem_of_needs hn)) hc

theorem reSearch_false_of_missing {r : RE} {s : List Char} {c : Char}
    (hn : RE.needs c r = true) (hc : c ∉ s) : reSearch r s = false := by
  simp only [reSearch, List.any_eq_false]
  intro i _
  have : c ∉ s.drop i := fun hmem => hc (List.mem_of_mem_drop hmem)
  simp [matchEnd_none_of_missing hn this]

/-- A successful `reSearch` exhibits a matched factor somewhere in the
string. -/
theorem reSearch_true {r : RE} {s : List Char} (h : reSearch r s = true) :
    ∃ i p q, s.drop i = p ++ q ∧ Matches p r := by
  simp only [reSearch, List.any_eq_true] at h
  obtain ⟨i, _, hm⟩ := h
  obtain ⟨n, hn⟩ := Option.isSome_iff_exists.mp hm
  obtain ⟨p, q, hs, hp, _⟩ := matchEnd_some hn
  exact ⟨i, p, q, hs, hp⟩

/-! ## Facts about the marker patterns and process_marked_lines -/

theorem minLen_p1P : RE.minLen p1P = 2 := rfl

theorem minLen_p2P : RE.minLen p2P = 2 := rfl

theorem minLen_fbCutP : RE.minLen fbCutP = 3 := rfl

theorem needs_s_p1P : RE.needs 's' p1P = true := rfl

theorem needs_m_inlineP : RE.needs 'm' inlineP = true := rfl

theorem needs_m_p2P : RE.needs 'm' p2P = true := rfl

theorem needs_m_fbFullP : RE.needs 'm' fbFullP = true := rfl

theorem needs_f_guardP : RE.needs 'f' guardP = true := rfl

theorem needs_m_nrmP : RE.needs 'm' nrmP = true := rfl

theorem minLen_nrmP : RE.minLen nrmP = 3 := rfl

theorem within_me_nrmP : RE.within (fun c => c = 'm' || c = 'e') nrmP = true := rfl

theorem replaceMT_length (ms : List Char) : (replaceMT ms).length = ms.length := by
  simp [replaceMT]

theorem pmlNormalize_length (ms : List Char) : (pmlNormalize ms).length = ms.length := by
  unfold pmlNormalize; split
  · exact replaceMT_length ms
  · rfl

/-- Any quotation end produced by the four boundary patterns is between 2 and
the marker count. -/
theorem pmlQuotationEnd_bounds {m : List Char} {qe : Nat}
    (h : pmlQuotationEnd m = some qe) : 2 ≤ qe ∧ qe ≤ m.length := by
  have hrev : m.reverse.length = m.length := by simp
  simp only [pmlQuotationEnd] at h
  cases h1 : matchEnd p1P m.reverse with
  | some e =>
    rw [h1] at h
    obtain ⟨hlo, hhi⟩ := matchEnd_bounds h1
    simp only [Option.some.injEq] at h
    subst h
    rw [minLen_p1P] at hlo
    omega
  | none =>
    rw [h1] at h
    by_cases hin : (matchEnd inlineP m.reverse).isSome
    · simp [hin] at h
    · simp only [hin, if_false, Bool.false_eq_true] at h
      cases h2 : matchEnd p2P m.reverse with
      | some e =>
        rw [h2] at h
        obtain ⟨hlo, hhi⟩ := matchEnd_bounds h2
        simp only [Option.some.injEq] at h
        subst h
        rw [minLen_p2P] at hlo
        omega
      | none =>
        rw [h2] at h
        by_cases hfull : (matchEnd fbFullP m.reverse).isSome
        · simp only [hfull, if_true] at h
          obtain ⟨hlo, hhi⟩ := matchEnd_bounds h
          rw [minLen_fbCutP] at hlo
          omega
        · simp [hfull] at h

/-- When process_marked_lines reports a deletion, the result is the two-sided
slice determined by a quotation end `qe` with `2 ≤ qe ≤ markers.length`. -/
theorem process_marked_lines_spec (lines : List String) (markers : List Char)
    (hdel : (process_marked_lines lines markers).deleted = true) :
    ∃ qe, 2 ≤ qe ∧ qe ≤ markers.length ∧
      process_marked_lines lines markers =
        ⟨lines.take (markers.length - qe + 1) ++ lines.drop (markers.length - 1), true,
         ((markers.length - qe + 1 : Nat) : Int), ((markers.length - 1 : Nat) : Int)⟩ := by
  unfold process_marked_lines at hdel ⊢
  set m' := pmlNormalize markers with hmnorm
  have hlen : m'.length = markers.length := pmlNormalize_length markers
  cases hg : (matchEnd guardP m').isSome with
  | true => simp [hg] at hdel
  | false =>
    simp only [hg, Bool.false_eq_true, if_false] at hdel ⊢
    cases hq : pmlQuotationEnd m' with
    | none => simp [hq] at hdel
    | some qe =>
      obtain ⟨h2, hle⟩ := pmlQuotationEnd_bounds hq
      rw [hlen] at hle
      refine ⟨qe, h2, hle, ?_⟩
      simp only [hq, hlen]

/-- `L.drop (L.length - 1)` is the singleton of the last element. -/
theorem drop_length_sub_one {α : Type} {L : List α} (h : L ≠ []) :
    L.drop (L.length - 1) = [L.getLast h] := by
  induction L with
  | nil => exact absurd rfl h
  | cons a t ih =>
    cases t with
    | nil => rfl
    | cons b t' =>
      have hne : (b :: t') ≠ [] := by simp
      have : (a :: b :: t').length - 1 = ((b :: t').length - 1) + 1 := by
        simp [List.length_cons]
      rw [this, List.drop_succ_cons, ih hne, List.getLast_cons hne]

theorem hasMMM_of_decomp {pre suf : List Char} :
    hasMMM (pre ++ 'm' :: 'm' :: 'm' :: suf) = true := by
  induction pre with
  | nil => rfl
  | cons c t ih =>
    show hasMMM (c :: (t ++ 'm' :: 'm' :: 'm' :: suf)) = true
    rw [hasMMM, ih, Bool.or_true]

/-! ## Completeness facts needed for the universal claims -/

/-- The greedy `[te]*` loop consumes exactly a text/blank run when the next
character is not `t`/`e` and the continuation then succeeds. -/
theorem runRE_starTE (x : List Char) :
    ∀ (fuel : Nat) (rest : List Char) (k : List Char → Option Nat) (v : Nat),
      (∀ c ∈ x, c = 't' ∨ c = 'e') →
      (∀ h : Char, rest.head? = some h → ¬(h = 't' ∨ h = 'e')) →
      x.length + 2 ≤ fuel →
      k rest = some v →
      runRE fuel (RE.star (RE.cls ['t', 'e'])) (x ++ rest) k = some v := by
  induction x with
  | nil =>
    intro fuel rest k v _ hrest hfuel hk
    obtain ⟨f, rfl⟩ : ∃ f, fuel = f + 1 := ⟨fuel - 1, by omega⟩
    obtain ⟨f', rfl⟩ : ∃ f', f = f' + 1 := ⟨f - 1, by omega⟩
    simp only [List.nil_append, runRE]
    cases rest with
    | nil => simp [runRE, Option.orElse, hk]
    | cons h t =>
      have hh : (['t', 'e'].contains h) = false := by
        have hht := hrest h rfl
        simp only [List.contains_cons, List.contains_nil, Bool.or_false]
        simp only [not_or] at hht
        simp [beq_iff_eq, hht.1, hht.2]
      simp only [runRE, hh, Bool.false_eq_true, if_false]
      simp [Option.orElse, hk]
  | cons c x' ih =>
    intro fuel rest k v hx hrest hfuel hk
    obtain ⟨f, rfl⟩ : ∃ f, fuel = f + 1 := ⟨fuel - 1, by omega⟩
    have hf : x'.length + 2 ≤ f := by
      simp only [List.length_cons] at hfuel; omega
    obtain ⟨f', rfl⟩ : ∃ f', f = f' + 1 := ⟨f - 1, by omega⟩
    have hc : (['t', 'e'].contains c) = true := by
      rcases hx c (by simp) with h | h <;> simp [h]
    have hlt : (x' ++ rest).length < (c :: (x' ++ rest)).length := by simp
    have hrec : runRE (f' + 1) (RE.star (RE.cls ['t', 'e'])) (x' ++ rest) k = some v :=
      ih (f' + 1) rest k v (fun d hd => hx d (by simp [hd])) hrest hf hk
    show (runRE (f' + 1) (RE.cls ['t', 'e']) ((c :: x') ++ rest)
            (fun t => if t.length < ((c :: x') ++ rest).length
                      then runRE (f' + 1) (RE.star (RE.cls ['t', 'e'])) t k
                      else none)).orElse
          (fun _ => k ((c :: x') ++ rest)) = some v
    have hcls : runRE (f' + 1) (RE.cls ['t', 'e']) ((c :: x') ++ rest)
            (fun t => if t.length < ((c :: x') ++ rest).length
                      then runRE (f' + 1) (RE.star (RE.cls ['t', 'e'])) t k
                      else none) = some v := by
      show (if ['t', 'e'].contains c = true
            then (if (x' ++ rest).length < ((c :: x') ++ rest).length
                  then runRE (f' + 1) (RE.star (RE.cls ['t', 'e'])) (x' ++ rest) k
                  else none)
            else none) = some v
      rw [if_pos hc, if_pos (by simp), hrec]
    rw [hcls]
    rfl

/-- Completeness of the forward guard: a marker sequence that is a text/blank
run followed by `f` matches `[te]*f`, ending just after the `f`. -/
theorem matchEnd_guardP {x rest : List Char} (hx : ∀ c ∈ x, c = 't' ∨ c = 'e') :
    matchEnd guardP (x ++ 'f' :: rest) = some (x.length + 1) := by
  unfold matchEnd
  have hsz : RE.size guardP = 4 := rfl
  have hlen : (x ++ 'f' :: rest).length = x.length + 1 + rest.length := by
    simp only [List.length_append, List.length_cons]; omega
  have hflit : fuelFor guardP (x ++ 'f' :: rest) = 6 * (x.length + 1 + rest.length + 2) := by
    simp only [fuelFor, hsz, hlen]
  obtain ⟨F, hF⟩ : ∃ F, fuelFor guardP (x ++ 'f' :: rest) = F + 1 :=
    ⟨fuelFor guardP (x ++ 'f' :: rest) - 1, by omega⟩
  have hFge : x.length + 2 ≤ F := by omega
  rw [hF]
  show runRE (F + 1) (RE.seq (RE.star (RE.cls ['t', 'e'])) (RE.ch 'f'))
      (x ++ 'f' :: rest) _ = _
  simp only [runRE]
  apply runRE_starTE x F ('f' :: rest) _ (x.length + 1) hx
  · intro h hh
    simp only [List.head?_cons, Option.some.injEq] at hh
    subst hh
    decide
  · exact hFge
  · obtain ⟨F', rfl⟩ : ∃ F', F = F' + 1 := ⟨F - 1, by omega⟩
    simp only [runRE, if_pos rfl]
    simp [hlen]

/-- No boundary pattern can fire on markers lacking both `m` and `s`. -/
theorem pmlQuotationEnd_none_no_ms {m : List Char} (hm : 'm' ∉ m) (hs : 's' ∉ m) :
    pmlQuotationEnd m = none := by
  have hmr : 'm' ∉ m.reverse := by simpa using hm
  have hsr : 's' ∉ m.reverse := by simpa using hs
  simp only [pmlQuotationEnd,
    matchEnd_none_of_missing needs_s_p1P hsr,
    matchEnd_none_of_missing needs_m_inlineP hmr,
    matchEnd_none_of_missing needs_m_p2P hmr,
    matchEnd_none_of_missing needs_m_fbFullP hmr]
  simp

/-- process_marked_lines never cuts when the normalized markers contain only
`t`, `e` and `f`. -/
theorem process_no_cut_of_norm_tef (lines : List String) (markers : List Char)
    (h : ∀ c ∈ pmlNormalize markers, c = 't' ∨ c = 'e' ∨ c = 'f') :
    process_marked_lines lines markers = ⟨lines, false, -1, -1⟩ := by
  unfold process_marked_lines
  set m' := pmlNormalize markers with hmnorm
  have hmm : 'm' ∉ m' := fun hc => by rcases h _ hc with h' | h' | h' <;> simp at h'
  have hms : 's' ∉ m' := fun hc => by rcases h _ hc with h' | h' | h' <;> simp at h'
  cases hg : (matchEnd guardP m').isSome with
  | true => simp [hg]
  | false => simp [hg, pmlQuotationEnd_none_no_ms hmm hms]

/-! ## Claim theorems: the plain-text extractor -/

/-- C1 (code_bug evaluation): on the spec's quote-stripping example input,
extract_from_plain returns `"Thanks!\n\n> more old content"`, not the
documented `"Thanks!"`: the fork's slice arithmetic
(`start = len - end + 1`, `lines[end:]`) keeps the blank line and the last
quoted line, contradicting the function's own docstring ("Return all but the
last quoted segment"). -/
theorem talon_C1_quote_strip_eval :
    extract_from_plain
        "Thanks!\n\nOn Mon, Jan 5, 2015 at 3:00 PM, Bob <b@x.com> wrote:\n> Old content\n> more old content"
      = "Thanks!\n\n> more old content" ∧
    "Thanks!\n\n> more old content" ≠ "Thanks!" :=
  ⟨rfl, by decide⟩

/-- C2 (counterexample): the claim says the fallback is evaluated against the
forward marker string and that on success everything up to and including the
last splitter is removed.  For the lines below (markers `tsetmt`), the
fallback pattern does not even match the forward markers (so under the claim
no cut would happen, P1/P2 having failed), yet the code does cut — it matches
the reversed markers and removes lines 2-4, keeping the splitter at index 1
and part of the text the claim says is removed. -/
theorem talon_C2_counterexample :
    mark_message_lines ["Reply", "-----Original Message-----", "", "hello", "> q", "sig"]
      = "tsetmt".data ∧
    matchEnd fbFullP "tsetmt".data = none ∧
    process_marked_lines ["Reply", "-----Original Message-----", "", "hello", "> q", "sig"]
        "tsetmt".data
      = ⟨["Reply", "-----Original Message-----", "sig"], true, 2, 5⟩ ∧
    (["Reply", "-----Original Message-----", "sig"] : List String)
      ≠ ["Reply", "-----Original Message-----", "", "hello", "> q", "sig"] :=
  ⟨rfl, rfl, rfl, by decide⟩

/-- C2 (amended): when P1 fails, the inline exclusion does not fire, and P2
fails, the fallback `e*(te*)+(me*)+.*(s)+e*(te*)+` is evaluated against the
REVERSED marker string (the reversal is only undone afterwards); on success
the quotation match is redefined as the reversed-string prefix matching
`e*(te*)+(me*)+.*(s)+`, whose end `qe` is at least 3, and the removed span is
computed by the same reverse-oriented arithmetic as the other patterns:
`lines[len-qe+1 : len-1]` is removed — not the forward prefix up to the last
splitter. -/
theorem talon_C2_fallback_reversed (lines : List String) (markers : List Char)
    (hs : markers.contains 's' = true)
    (hguard : matchEnd guardP markers = none)
    (h1 : matchEnd p1P markers.reverse = none)
    (hinl : matchEnd inlineP markers.reverse = none)
    (h2 : matchEnd p2P markers.reverse = none)
    (hfull : (matchEnd fbFullP markers.reverse).isSome = true)
    (qe : Nat) (hcut : matchEnd fbCutP markers.reverse = some qe) :
    3 ≤ qe ∧
    process_marked_lines lines markers =
      ⟨lines.take (markers.length - qe + 1) ++ lines.drop (markers.length - 1), true,
       ((markers.length - qe + 1 : Nat) : Int), ((markers.length - 1 : Nat) : Int)⟩ := by
  have hmin : 3 ≤ qe := by
    have h := (matchEnd_bounds hcut).1
    rw [minLen_fbCutP] at h
    exact h
  refine ⟨hmin, ?_⟩
  have hnorm : pmlNormalize markers = markers := by
    unfold pmlNormalize
    rw [if_neg (fun hcond => hcond.1 hs)]
  simp only [process_marked_lines, hnorm, hguard, Option.isSome_none, Bool.false_eq_true,
    if_false, pmlQuotationEnd, h1, hinl, h2, hfull, if_true, hcut]

/-- Witness for C2 (amended), at the counterexample's own input. -/
theorem talon_C2_fallback_reversed_witness :
    process_marked_lines ["Reply", "-----Original Message-----", "", "hello", "> q", "sig"]
        "tsetmt".data
      = ⟨(["Reply", "-----Original Message-----", "", "hello", "> q", "sig"] : List String).take
           ("tsetmt".data.length - 5 + 1)
         ++ (["Reply", "-----Original Message-----", "", "hello", "> q", "sig"] : List String).drop
           ("tsetmt".data.length - 1), true,
         (("tsetmt".data.length - 5 + 1 : Nat) : Int), (("tsetmt".data.length - 1 : Nat) : Int)⟩ :=
  (talon_C2_fallback_reversed
    ["Reply", "-----Original Message-----", "", "hello", "> q", "sig"] "tsetmt".data
    (by decide) (by decide) (by decide) (by decide) (by decide) (by decide) 5 (by decide)).2

/-- C5 (counterexample): an input whose markers are `t f t` (so the forward
guard fires and no lines are removed) is still not returned byte-identical:
the final strip loses the trailing newline. -/
theorem talon_C5_counterexample :
    mark_message_lines (pySplitlines "hi\nBegin forwarded message:\nx\n") = "tft".data ∧
    extract_from_plain "hi\nBegin forwarded message:\nx\n" = "hi\nBegin forwarded message:\nx" ∧
    "hi\nBegin forwarded message:\nx" ≠ "hi\nBegin forwarded message:\nx\n" :=
  ⟨rfl, rfl, by decide⟩

/-- C5 (amended): whenever the marker sequence is a run of `t`/`e` followed
by `f`, process_marked_lines returns the lines unchanged with flags
`(false, -1, -1)`; extract_from_plain therefore removes no lines, and on the
spec's forward example (which has no leading/trailing whitespace and `\n`
delimiters) the output is byte-identical to the input. -/
theorem talon_C5_forward_guard (lines : List String) (x rest : List Char)
    (hx : x.all (fun c => c = 't' || c = 'e') = true) :
    process_marked_lines lines (x ++ 'f' :: rest) = ⟨lines, false, -1, -1⟩ ∧
    extract_from_plain "Hi,\n\n---------- Forwarded message ----------\nFrom: a@b.com\nHello" =
      "Hi,\n\n---------- Forwarded message ----------\nFrom: a@b.com\nHello" := by
  refine ⟨?_, by rfl⟩
  have hx' : ∀ c ∈ x, c = 't' ∨ c = 'e' := by
    intro c hc
    simpa using List.all_eq_true.mp hx c hc
  unfold process_marked_lines
  set m' := pmlNormalize (x ++ 'f' :: rest) with hmnorm
  have hshape : ∃ x' rest', m' = x' ++ 'f' :: rest' ∧ ∀ c ∈ x', c = 't' ∨ c = 'e' := by
    rw [hmnorm]
    unfold pmlNormalize
    split
    · refine ⟨replaceMT x, replaceMT rest, ?_, ?_⟩
      · simp [replaceMT]
      · intro c hc
        simp only [replaceMT, List.mem_map] at hc
        obtain ⟨c₀, hc₀, rfl⟩ := hc
        rcases hx' c₀ hc₀ with h | h <;> simp [h]
    · exact ⟨x, rest, rfl, hx'⟩
  obtain ⟨x', rest', hm'eq, hx'te⟩ := hshape
  have hg : (matchEnd guardP m').isSome = true := by
    rw [hm'eq, matchEnd_guardP hx'te]
    rfl
  simp [hg]

/-- Witness for C5 (amended): the guard branch at a concrete marker split. -/
theorem talon_C5_forward_guard_witness :
    process_marked_lines ["Hi,", "", "fwd", "From: a@b.com", "Hello"]
        ("te".data ++ 'f' :: "st".data)
      = ⟨["Hi,", "", "fwd", "From: a@b.com", "Hello"], false, -1, -1⟩ :=
  (talon_C5_forward_guard ["Hi,", "", "fwd", "From: a@b.com", "Hello"]
    "te".data "st".data (by decide)).1

/-- C6 (counterexample): an input alternating text and quote lines more than
once IS truncated when a quote run reaches three lines: the normalization
keeps the `m` markers (a `(me*){3}` run exists), the inline-reply exclusion
does not fire, and P2 removes line 4 (`> q3`). -/
theorem talon_C6_counterexample :
    extract_from_plain "t1\n> q1\nt2\n> q2\n> q3\n> q4" = "t1\n> q1\nt2\n> q2\n> q4" ∧
    "t1\n> q1\nt2\n> q2\n> q4" ≠ "t1\n> q1\nt2\n> q2\n> q3\n> q4" :=
  ⟨rfl, by decide⟩

/-- C6 (amended): for line sequences whose markers contain only `t` and `m`
with no three consecutive quote markers, process_marked_lines removes
nothing (the normalization turns every `m` into `t`, after which no boundary
pattern can match); in particular the spec's example `t1\n> q1\nt2\n> q2` is
returned unchanged. -/
theorem talon_C6_inline_alternation (lines : List String) (markers : List Char)
    (hchars : markers.all (fun c => c = 't' || c = 'm') = true)
    (hno3 : hasMMM markers = false) :
    process_marked_lines lines markers = ⟨lines, false, -1, -1⟩ ∧
    extract_from_plain "t1\n> q1\nt2\n> q2" = "t1\n> q1\nt2\n> q2" := by
  refine ⟨?_, by rfl⟩
  have hcs : ∀ c ∈ markers, c = 't' ∨ c = 'm' := fun c hc => by
    simpa using List.all_eq_true.mp hchars c hc
  have hnos : markers.contains 's' = false := by
    cases h : markers.contains 's' with
    | false => rfl
    | true =>
      exfalso
      have hmem : 's' ∈ markers := by simpa using h
      rcases hcs 's' hmem with h' | h' <;> simp at h'
  have hsearch : reSearch nrmP markers = false := by
    cases h : reSearch nrmP markers with
    | false => rfl
    | true =>
      exfalso
      obtain ⟨i, p, q, hdrop, hp⟩ := reSearch_true h
      have hsub : ∀ c ∈ p, c ∈ markers := by
        intro c hc
        exact List.mem_of_mem_drop (hdrop ▸ List.mem_append_left q hc)
      have hallm : ∀ c ∈ p, c = 'm' := by
        intro c hc
        have h1 := hp.ok_of_within within_me_nrmP c hc
        rcases hcs c (hsub c hc) with h2 | h2
        · rw [h2] at h1; simp at h1
        · exact h2
      have hlen3 : 3 ≤ p.length := minLen_nrmP ▸ hp.minLen_le
      obtain ⟨c1, c2, c3, p', rfl⟩ : ∃ c1 c2 c3 p', p = c1 :: c2 :: c3 :: p' := by
        match p, hlen3 with
        | c1 :: c2 :: c3 :: p', _ => exact ⟨c1, c2, c3, p', rfl⟩
      have e1 := hallm c1 (by simp)
      have e2 := hallm c2 (by simp)
      have e3 := hallm c3 (by simp)
      subst e1; subst e2; subst e3
      have hdecomp : markers = markers.take i ++ ('m' :: 'm' :: 'm' :: (p' ++ q)) := by
        conv_lhs => rw [← List.take_append_drop i markers]
        rw [hdrop]
        simp
      rw [hdecomp, hasMMM_of_decomp] at hno3
      exact absurd hno3 (by decide)
  have hnorm : pmlNormalize markers = replaceMT markers := by
    unfold pmlNormalize
    rw [if_pos]
    exact ⟨by rw [hnos]; decide, by rw [hsearch]; decide⟩
  refine process_no_cut_of_norm_tef lines markers ?_
  rw [hnorm]
  intro c hc
  simp only [replaceMT, List.mem_map] at hc
  obtain ⟨c₀, h₀, rfl⟩ := hc
  rcases hcs c₀ h₀ with h' | h' <;> simp [h']

/-- Witness for C6 (amended), at the spec's alternating example markers. -/
theorem talon_C6_inline_alternation_witness :
    process_marked_lines ["t1", "> q1", "t2", "> q2"] "tmtm".data
      = ⟨["t1", "> q1", "t2", "> q2"], false, -1, -1⟩ :=
  (talon_C6_inline_alternation ["t1", "> q1", "t2", "> q2"] "tmtm".data
    (by decide) (by decide)).1

/-- C7 (counterexample): extract_from_plain is not idempotent.  For this
5-line input (well under the 1000-line cap) the first pass removes the
second splitter, and the second pass then removes two further lines. -/
theorem talon_C7_counterexample :
    (pySplitlines "-----Original Message-----\nhello\n\n-----Original Message-----\nworld").length
        ≤ MAX_LINES_COUNT ∧
    extract_from_plain (extract_from_plain
        "-----Original Message-----\nhello\n\n-----Original Message-----\nworld")
      ≠ extract_from_plain
        "-----Original Message-----\nhello\n\n-----Original Message-----\nworld" := by
  refine ⟨by decide, ?_⟩
  have h1 : extract_from_plain
      "-----Original Message-----\nhello\n\n-----Original Message-----\nworld"
      = "-----Original Message-----\nhello\n\nworld" := rfl
  have h2 : extract_from_plain "-----Original Message-----\nhello\n\nworld"
      = "-----Original Message-----\nworld" := rfl
  rw [h1, h2]
  decide

/-- C7 (amended): extract_from_plain is not idempotent in general, but
re-running it changes nothing once no quote-marker or splitter line remains:
process_marked_lines removes no lines from any sequence whose markers are
only `t`, `e`, `f`, and in particular the output of the spec's quote-strip
example is a fixed point. -/
theorem talon_C7_normalized_fixed_points :
    (∀ (lines : List String) (markers : List Char),
        markers.all (fun c => c = 't' || c = 'e' || c = 'f') = true →
        process_marked_lines lines markers = ⟨lines, false, -1, -1⟩) ∧
    extract_from_plain "Thanks!\n\n> more old content" = "Thanks!\n\n> more old content" := by
  refine ⟨?_, by rfl⟩
  intro lines markers h
  have hcs : ∀ c ∈ markers, c = 't' ∨ c = 'e' ∨ c = 'f' := fun c hc => by
    have hb := List.all_eq_true.mp h c hc
    simpa [or_assoc] using hb
  refine process_no_cut_of_norm_tef lines markers ?_
  intro c hc
  unfold pmlNormalize at hc
  split at hc
  · simp only [replaceMT, List.mem_map] at hc
    obtain ⟨c₀, h₀, rfl⟩ := hc
    rcases hcs c₀ h₀ with h' | h' | h' <;> simp [h']
  · exact hcs c hc

/-- Witness for C7 (amended). -/
theorem talon_C7_normalized_fixed_points_witness :
    process_marked_lines ["a", "", "fwd"] "tef".data = ⟨["a", "", "fwd"], false, -1, -1⟩ :=
  (talon_C7_normalized_fixed_points).1 ["a", "", "fwd"] "tef".data (by decide)

/-- C10: whenever process_marked_lines reports a deletion, the flags satisfy
`1 ≤ start ≤ end = len(lines) - 1`, and the returned line list retains both
the first and the last line of its input. -/
theorem talon_C10_deletion_span (lines : List String) (markers : List Char)
    (hlen : markers.length = lines.length)
    (hdel : (process_marked_lines lines markers).deleted = true) :
    1 ≤ (process_marked_lines lines markers).firstDel ∧
    (process_marked_lines lines markers).firstDel
      ≤ (process_marked_lines lines markers).lastDel ∧
    (process_marked_lines lines markers).lastDel = (lines.length : Int) - 1 ∧
    (process_marked_lines lines markers).lines.head? = lines.head? ∧
    (process_marked_lines lines markers).lines.getLast? = lines.getLast? := by
  obtain ⟨qe, h2, hle, heq⟩ := process_marked_lines_spec lines markers hdel
  rw [heq]
  have hn2 : 2 ≤ markers.length := le_trans h2 hle
  have hl2 : 2 ≤ lines.length := by omega
  have hnn : lines ≠ [] := by
    intro h
    rw [h] at hl2
    simp at hl2
  refine ⟨?_, ?_, ?_, ?_, ?_⟩
  · show (1 : Int) ≤ ((markers.length - qe + 1 : Nat) : Int)
    omega
  · show ((markers.length - qe + 1 : Nat) : Int) ≤ ((markers.length - 1 : Nat) : Int)
    omega
  · show ((markers.length - 1 : Nat) : Int) = (lines.length : Int) - 1
    omega
  · show (lines.take (markers.length - qe + 1) ++ lines.drop (markers.length - 1)).head?
        = lines.head?
    obtain ⟨a, rest, rfl⟩ : ∃ a rest, lines = a :: rest := by
      cases lines with
      | nil => exact absurd rfl hnn
      | cons a rest => exact ⟨a, rest, rfl⟩
    rw [show markers.length - qe + 1 = (markers.length - qe) + 1 from rfl,
        List.take_succ_cons]
    simp
  · show (lines.take (markers.length - qe + 1) ++ lines.drop (markers.length - 1)).getLast?
        = lines.getLast?
    rw [hlen, drop_length_sub_one hnn, List.getLast?_concat]
    exact (List.getLast?_eq_getLast lines hnn).symm

/-- Witness for C10, at the spec example's lines and markers. -/
theorem talon_C10_deletion_span_witness :
    1 ≤ (process_marked_lines ["Thanks!", "", "On x,", "> a", "> b"] "tesmm".data).firstDel ∧
    (process_marked_lines ["Thanks!", "", "On x,", "> a", "> b"] "tesmm".data).firstDel
      ≤ (process_marked_lines ["Thanks!", "", "On x,", "> a", "> b"] "tesmm".data).lastDel ∧
    (process_marked_lines ["Thanks!", "", "On x,", "> a", "> b"] "tesmm".data).lastDel
      = ((["Thanks!", "", "On x,", "> a", "> b"] : List String).length : Int) - 1 ∧
    (process_marked_lines ["Thanks!", "", "On x,", "> a", "> b"] "tesmm".data).lines.head?
      = (["Thanks!", "", "On x,", "> a", "> b"] : List String).head? ∧
    (process_marked_lines ["Thanks!", "", "On x,", "> a", "> b"] "tesmm".data).lines.getLast?
      = (["Thanks!", "", "On x,", "> a", "> b"] : List String).getLast? :=
  talon_C10_deletion_span ["Thanks!", "", "On x,", "> a", "> b"] "tesmm".data
    (by decide) (by decide)

/-- C3: extract_from always returns a string: it either propagates the
dispatched extractor's normal return value, or — for any raised exception,
or any unknown content type — returns the original body unchanged. -/
theorem talon_C3_extract_from_total (plainF htmlF : String → PyResult)
    (body ct : String) :
    (extract_from plainF htmlF body ct = body ∨
     (ct = "text/plain" ∧ ∃ s, plainF body = .ok s ∧ extract_from plainF htmlF body ct = s) ∨
     (ct = "text/html" ∧ ∃ s, htmlF body = .ok s ∧ extract_from plainF htmlF body ct = s)) ∧
    (∀ e, plainF body = .exn e → ct = "text/plain" → extract_from plainF htmlF body ct = body) ∧
    (∀ e, htmlF body = .exn e → ct = "text/html" → extract_from plainF htmlF body ct = body) := by
  refine ⟨?_, ?_, ?_⟩
  · by_cases h1 : ct = "text/plain"
    · subst h1
      cases hp : plainF body with
      | ok s => exact Or.inr (Or.inl ⟨rfl, s, rfl, by simp [extract_from, hp]⟩)
      | exn e => exact Or.inl (by simp [extract_from, hp])
    · by_cases h2 : ct = "text/html"
      · subst h2
        cases hh : htmlF body with
        | ok s =>
          refine Or.inr (Or.inr ⟨rfl, s, rfl, ?_⟩)
          rw [extract_from, if_neg (by decide), if_pos rfl, hh]
        | exn e =>
          refine Or.inl ?_
          rw [extract_from, if_neg (by decide), if_pos rfl, hh]
      · exact Or.inl (by rw [extract_from, if_neg h1, if_neg h2])
  · intro e hp h1
    subst h1
    simp [extract_from, hp]
  · intro e hh h2
    subst h2
    rw [extract_from, if_neg (by decide), if_pos rfl, hh]

/-- Witness for C3: a plain-text extractor that raises never propagates; the
body comes back unchanged. -/
theorem talon_C3_extract_from_total_witness :
    extract_from (fun _ => .exn "boom") (fun s => .ok s) "Hello" "text/plain" = "Hello" :=
  (talon_C3_extract_from_total (fun _ => .exn "boom") (fun s => .ok s)
    "Hello" "text/plain").2.1 "boom" rfl rfl

/-! ## extract_from_html candidate selection (lines 321-355) -/

/-- Python's first-minimum: the selected pair splits the list into a strict
part (earlier candidates, all strictly longer) and a tail (later candidates,
all at least as long). -/
theorem pyMinByFirst_first_min (x : Nat × String) (xs : List (Nat × String)) :
    ∃ A B, x :: xs = A ++ pyMinByFirst x xs :: B ∧
      (∀ y ∈ A, (pyMinByFirst x xs).1 < y.1) ∧
      (∀ y ∈ B, (pyMinByFirst x xs).1 ≤ y.1) := by
  induction xs generalizing x with
  | nil => exact ⟨[], [], rfl, by simp, by simp⟩
  | cons c rest ih =>
    have hstep : pyMinByFirst x (c :: rest) = pyMinByFirst (if c.1 < x.1 then c else x) rest :=
      rfl
    by_cases hc : c.1 < x.1
    · rw [hstep, if_pos hc]
      obtain ⟨A', B', heq, hA', hB'⟩ := ih c
      have hsel_le : ∀ y ∈ c :: rest, (pyMinByFirst c rest).1 ≤ y.1 := by
        intro y hy
        rw [heq] at hy
        rcases List.mem_append.mp hy with h | h
        · exact le_of_lt (hA' y h)
        · rcases List.mem_cons.mp h with h | h
          · exact le_of_eq (by rw [h])
          · exact hB' y h
      refine ⟨x :: A', B', by rw [List.cons_append, ← heq], ?_, hB'⟩
      intro y hy
      rcases List.mem_cons.mp hy with h | h
      · rw [h]
        exact lt_of_le_of_lt (hsel_le c (by simp)) hc
      · exact hA' y h
    · rw [hstep, if_neg hc]
      have hxc : x.1 ≤ c.1 := le_of_not_lt hc
      obtain ⟨A', B', heq, hA', hB'⟩ := ih x
      cases A' with
      | nil =>
        simp only [List.nil_append] at heq
        injection heq with h1 h2
        refine ⟨[], c :: B', ?_, by simp, ?_⟩
        · rw [List.nil_append, ← h1, ← h2]
        · intro y hy
          rcases List.mem_cons.mp hy with h | h
          · rw [h, ← h1]
            exact hxc
          · exact hB' y h
      | cons a A'' =>
        rw [List.cons_append] at heq
        injection heq with h1 h2
        refine ⟨x :: c :: A'', B', ?_, ?_, hB'⟩
        · rw [List.cons_append, List.cons_append, ← h2]
        · intro y hy
          have hax : (pyMinByFirst x rest).1 < x.1 := by
            have h := hA' a (by simp)
            rw [← h1] at h
            exact h
          rcases List.mem_cons.mp hy with h | h
          · rw [h]
            exact hax
          · rcases List.mem_cons.mp h with h | h
            · rw [h]
              exact lt_of_lt_of_le hax hxc
            · exact hA' y (by simp [h])

/-- C4: extract_from_html keeps every candidate whose strategy succeeded
with non-zero rendered length, returns the serialization of the candidate
with minimum rendered length (an exact tie resolving to the first in
evaluation order: every earlier kept candidate is strictly longer), and
returns the original body unmodified when no strategy succeeds, when all
successes render to zero length, when the body is blank, or when parsing
failed. -/
theorem talon_C4_html_selection (msg_body : String) (cands : List CutCandidate)
    (hnb : pyStrip msg_body ≠ "") :
    (∀ p ∈ collectResults cands,
        ∃ c ∈ cands, c.success = true ∧ c.textLength ≠ 0 ∧ p = (c.textLength, c.serialized)) ∧
    (collectResults cands = [] → extract_from_html msg_body true cands = msg_body) ∧
    (∀ r rs, collectResults cands = r :: rs →
      ∃ A sel B, r :: rs = A ++ sel :: B ∧
        extract_from_html msg_body true cands = sel.2 ∧
        (∀ y ∈ A, sel.1 < y.1) ∧
        (∀ y ∈ B, sel.1 ≤ y.1)) ∧
    extract_from_html msg_body false cands = msg_body := by
  refine ⟨?_, ?_, ?_, ?_⟩
  · intro p hp
    simp only [collectResults, List.mem_filterMap] at hp
    obtain ⟨c, hc, hcp⟩ := hp
    by_cases h : c.success = true ∧ c.textLength ≠ 0
    · rw [if_pos h] at hcp
      exact ⟨c, hc, h.1, h.2, (Option.some.injEq _ _ ▸ hcp).symm⟩
    · rw [if_neg h] at hcp
      exact absurd hcp (by simp)
  · intro h
    simp [extract_from_html, hnb, h]
  · intro r rs h
    obtain ⟨A, B, heq, hA, hB⟩ := pyMinByFirst_first_min r rs
    refine ⟨A, pyMinByFirst r rs, B, heq, ?_, hA, hB⟩
    simp [extract_from_html, hnb, h]
  · simp [extract_from_html, hnb]

/-- Witness for C4: four concrete candidates; the two shortest tie at length
3 and the earlier of them wins. -/
theorem talon_C4_html_selection_witness :
    (∃ A sel B,
        [((5 : Nat), "a"), ((3 : Nat), "c"), ((3 : Nat), "d")]
          = A ++ sel :: B ∧
        extract_from_html "x" true
          [⟨true, 5, "a"⟩, ⟨false, 1, "b"⟩, ⟨true, 3, "c"⟩, ⟨true, 0, "z"⟩, ⟨true, 3, "d"⟩]
          = sel.2 ∧
        (∀ y ∈ A, sel.1 < y.1) ∧
        (∀ y ∈ B, sel.1 ≤ y.1)) :=
  (talon_C4_html_selection "x"
    [⟨true, 5, "a"⟩, ⟨false, 1, "b"⟩, ⟨true, 3, "c"⟩, ⟨true, 0, "z"⟩, ⟨true, 3, "d"⟩]
    (by decide)).2.2.1 (5, "a") [(3, "c"), (3, "d")] (by decide)

/-! ## C8: checkpoint bijection -/

mutual
theorem add_checkpoint_counter : ∀ (e : Elem) (c : Nat),
    (add_checkpoint e c).2 = c + 2 * Elem.size e
  | .mk ph text cs tail, c => by
    show (add_checkpoint_list cs (c + 1)).2 + 1 = c + 2 * (1 + ElemList.size cs)
    rw [add_checkpoint_list_counter cs (c + 1)]
    ring
theorem add_checkpoint_list_counter : ∀ (es : ElemList) (c : Nat),
    (add_checkpoint_list es c).2 = c + 2 * ElemList.size es
  | .nil, c => by simp [add_checkpoint_list, ElemList.size]
  | .cons e es, c => by
    show (add_checkpoint_list es (add_checkpoint e c).2).2
        = c + 2 * (Elem.size e + ElemList.size es)
    rw [add_checkpoint_list_counter es _, add_checkpoint_counter e c]
    ring
end

mutual
theorem flatTextsLenE : ∀ (e : Elem),
    (Elem.flatTexts e).length = 2 * Elem.size e
  | .mk ph text cs tail => by
    show (text :: (ElemList.flatTexts cs ++ [tail])).length = 2 * (1 + ElemList.size cs)
    simp only [List.length_cons, List.length_append, List.length_singleton,
      List.length_nil, flatTextsLenL cs]
    ring
theorem flatTextsLenL : ∀ (es : ElemList),
    (ElemList.flatTexts es).length = 2 * ElemList.size es
  | .nil => rfl
  | .cons e es => by
    show (Elem.flatTexts e ++ ElemList.flatTexts es).length
        = 2 * (Elem.size e + ElemList.size es)
    simp only [List.length_append, flatTextsLenE e, flatTextsLenL es]
    ring
end

mutual
theorem add_checkpoint_flatTexts : ∀ (e : Elem) (c : Nat),
    Elem.flatTexts (add_checkpoint e c).1
      = List.zipWith addTok (Elem.flatTexts e) (List.range' c (2 * Elem.size e))
  | .mk ph text cs tail, c => by
    show addTok text c :: (ElemList.flatTexts (add_checkpoint_list cs (c + 1)).1
          ++ [addTok tail (add_checkpoint_list cs (c + 1)).2])
        = List.zipWith addTok (text :: (ElemList.flatTexts cs ++ [tail]))
            (List.range' c (2 * (1 + ElemList.size cs)))
    rw [add_checkpoint_list_flatTexts cs (c + 1), add_checkpoint_list_counter cs (c + 1)]
    have h2 : 2 * (1 + ElemList.size cs) = (2 * ElemList.size cs + 1) + 1 := by ring
    rw [h2, List.range'_succ, List.range'_1_concat, List.zipWith_cons_cons,
      List.zipWith_append addTok _ _ _ _
        (by rw [flatTextsLenL, List.length_range'])]
    rfl
theorem add_checkpoint_list_flatTexts : ∀ (es : ElemList) (c : Nat),
    ElemList.flatTexts (add_checkpoint_list es c).1
      = List.zipWith addTok (ElemList.flatTexts es) (List.range' c (2 * ElemList.size es))
  | .nil, c => rfl
  | .cons e es, c => by
    show Elem.flatTexts (add_checkpoint e c).1
          ++ ElemList.flatTexts (add_checkpoint_list es (add_checkpoint e c).2).1
        = List.zipWith addTok (Elem.flatTexts e ++ ElemList.flatTexts es)
            (List.range' c (2 * (Elem.size e + ElemList.size es)))
    rw [add_checkpoint_flatTexts e c, add_checkpoint_list_flatTexts es _,
      add_checkpoint_counter e c]
    have h2 : 2 * (Elem.size e + ElemList.size es)
        = 2 * ElemList.size es + 2 * Elem.size e := by ring
    rw [h2, ← List.range'_append_1 c (2 * Elem.size e) (2 * ElemList.size es),
      List.zipWith_append addTok _ _ _ _
        (by rw [flatTextsLenE, List.length_range'])]
end

/-! ## C9: placeholder uniqueness and position -/

theorem phSum_cons (e : Elem) (l : List Elem) :
    phSum (e :: l) = phCountE e + phSum l := by
  simp [phSum]

theorem phSum_append (l l' : List Elem) :
    phSum (l ++ l') = phSum l + phSum l' := by
  simp [phSum]

theorem phPairs_cons (p : Elem × Bool) (l : List (Elem × Bool)) :
    phPairs (p :: l) = phCountE p.1 + phPairs l := by
  simp [phPairs, phSum]

theorem phPairs_append (l l' : List (Elem × Bool)) :
    phPairs (l ++ l') = phPairs l + phPairs l' := by
  simp [phPairs, phSum]

theorem phCountL_toEL (l : List Elem) : phCountL (toEL l) = phSum l := by
  induction l with
  | nil => rfl
  | cons e es ih =>
    show phCountE e + phCountL (toEL es) = phSum (e :: es)
    rw [ih, phSum_cons]

theorem phPairs_filter_le (pr : Elem × Bool → Bool) (l : List (Elem × Bool)) :
    phPairs (l.filter pr) ≤ phPairs l := by
  induction l with
  | nil => exact Nat.le_refl _
  | cons p rest ih =>
    rw [List.filter_cons, phPairs_cons]
    by_cases h : pr p
    · rw [if_pos h, phPairs_cons]
      omega
    · rw [if_neg h]
      omega

theorem phPairs_eq_zero (l : List (Elem × Bool))
    (h : ∀ p ∈ l, phCountE p.1 = 0) : phPairs l = 0 := by
  induction l with
  | nil => rfl
  | cons p rest ih =>
    rw [phPairs_cons, h p (by simp), ih (fun q hq => h q (by simp [hq]))]

mutual
theorem phCountE_scrubE : ∀ (e : Elem),
    phCountE (scrubE e) = if Elem.isPh e then 1 else 0
  | .mk b t cs tl => by
    show (if b then 1 else 0) + phCountL (scrubL cs) = if b then 1 else 0
    rw [phCountL_scrubL cs]
    omega
theorem phCountL_scrubL : ∀ (cs : ElemList), phCountL (scrubL cs) = 0
  | .nil => rfl
  | .cons e es => by
    show phCountL (if Elem.isPh e then scrubL es else .cons (scrubE e) (scrubL es)) = 0
    by_cases h : Elem.isPh e
    · rw [if_pos h]
      exact phCountL_scrubL es
    · rw [if_neg h]
      show phCountE (scrubE e) + phCountL (scrubL es) = 0
      rw [phCountE_scrubE e, phCountL_scrubL es]
      simp [h]
end

theorem isPh_scrubE (e : Elem) : Elem.isPh (scrubE e) = Elem.isPh e := by
  cases e
  rfl

theorem phCountE_zero_isPh (e : Elem) (h : phCountE e = 0) : Elem.isPh e = false := by
  cases e with
  | mk b t cs tl =>
    cases b
    · rfl
    · exact absurd h (by simp [phCountE])

theorem scrubPairs_count_zero (l : List (Elem × Bool))
    (h : ∀ p ∈ l, Elem.isPh p.1 = false) :
    ∀ p ∈ scrubPairs l, phCountE p.1 = 0 := by
  intro p hp
  simp only [scrubPairs, List.mem_map] at hp
  obtain ⟨a, ha, rfl⟩ := hp
  rw [phCountE_scrubE, h a ha]
  rfl

theorem scrubPairs_all_snd (l : List (Elem × Bool)) :
    (scrubPairs l).all (fun p => !p.2) = l.all (fun p => !p.2) := by
  induction l with
  | nil => rfl
  | cons p rest ih =>
    simp only [scrubPairs, List.map_cons, List.all_cons] at ih ⊢
    rw [ih]

theorem phCountE_placeholderE : phCountE placeholderE = 1 := rfl

theorem insPhQ_filter_count (l : List (Elem × Bool))
    (h0 : ∀ p ∈ l, phCountE p.1 = 0)
    (hq : l.all (fun p => !p.2) = false) :
    phPairs ((insPhQ l).filter (fun p => !p.2)) = 1 := by
  induction l with
  | nil => simp at hq
  | cons p rest ih =>
    obtain ⟨e, q⟩ := p
    by_cases hqh : q
    · subst hqh
      show phPairs (((placeholderE, false) :: (e, true) :: rest).filter (fun p => !p.2)) = 1
      rw [List.filter_cons, if_pos (by simp), List.filter_cons, if_neg (by simp),
        phPairs_cons]
      have h1 : phPairs (rest.filter (fun p => !p.2)) = 0 := by
        have hle := phPairs_filter_le (fun p => !p.2) rest
        have hz : phPairs rest = 0 := phPairs_eq_zero rest
          (fun q hq2 => h0 q (by simp [hq2]))
        omega
      rw [h1, phCountE_placeholderE]
    · have hq' : q = false := by simpa using hqh
      subst hq'
      show phPairs (((e, false) :: insPhQ rest).filter (fun p => !p.2)) = 1
      rw [List.filter_cons, if_pos (by simp), phPairs_cons]
      have he : phCountE e = 0 := h0 (e, false) (by simp)
      rw [he, ih (fun q hq2 => h0 q (by simp [hq2])) (by simpa using hq)]

theorem phSum_map_fst (l : List (Elem × Bool)) :
    phSum (l.map (fun p => p.1)) = phPairs l := rfl

theorem delQPlaced_flag (textQ tailQ flag kidsPlaced : Bool) (kids : List (Elem × Bool))
    (hkf : kidsPlaced = true → flag = true)
    (h : delQPlaced textQ tailQ flag kidsPlaced kids = true) : flag = true := by
  cases flag
  · exfalso
    simp [delQPlaced] at h
    exact absurd (hkf h) (by decide)
  · rfl

theorem phSum_nil : phSum [] = 0 := rfl

theorem delQPlaced_textQ (tlQ fl kp : Bool) (kids : List (Elem × Bool))
    (h : fl = true) : delQPlaced true tlQ fl kp kids = true := by
  simp [delQPlaced, h]

theorem delQPlaced_kp (tQ tlQ fl : Bool) (kids : List (Elem × Bool)) :
    delQPlaced tQ tlQ fl true kids = true := by
  simp [delQPlaced]

theorem delQPlaced_tail (fl kp : Bool) (kids : List (Elem × Bool))
    (h : fl = true) : delQPlaced false true fl kp kids = true := by
  subst h
  cases hq : kids.all (fun p => !p.2) <;> simp [delQPlaced, hq]

theorem delQKids_phSum (textQ tailQ flag kidsPlaced : Bool) (kids : List (Elem × Bool))
    (hkc : phPairs kids = if kidsPlaced then 1 else 0)
    (hk0 : ∀ p ∈ kids, Elem.isPh p.1 = false)
    (hkf : kidsPlaced = true → (flag && !textQ) = true) :
    phSum (delQKids textQ tailQ flag kids)
      = if delQPlaced textQ tailQ flag kidsPlaced kids then 1 else 0 := by
  have hsc : ∀ p ∈ scrubPairs kids, phCountE p.1 = 0 := scrubPairs_count_zero kids hk0
  have hfle : phPairs (kids.filter (fun p => !p.2)) ≤ phPairs kids :=
    phPairs_filter_le _ kids
  have hscf : phPairs ((scrubPairs kids).filter (fun p => !p.2)) = 0 := by
    have h1 := phPairs_filter_le (fun p => !p.2) (scrubPairs kids)
    have h2 := phPairs_eq_zero (scrubPairs kids) hsc
    omega
  cases textQ <;> cases tailQ <;> cases flag
  · -- textQ = false, tailQ = false, flag = false
    have hkp : kidsPlaced = false := by
      cases kidsPlaced
      · rfl
      · exact absurd (hkf rfl) (by decide)
    subst hkp
    simp at hkc
    simp [delQKids, delQPlaced, phSum_map_fst, phSum_nil, phSum_append]
    omega
  · -- textQ = false, tailQ = false, flag = true
    by_cases hq : kids.all (fun p => !p.2)
    · have hfeq : kids.filter (fun p => !p.2) = kids :=
        List.filter_eq_self.mpr (List.all_eq_true.mp hq)
      simp [delQKids, delQPlaced, phSum_map_fst, phSum_nil, phSum_append, hq, hfeq]
      simpa using hkc
    · simp only [Bool.not_eq_true] at hq
      have h1 := insPhQ_filter_count (scrubPairs kids) hsc
        (by rw [scrubPairs_all_snd]; exact hq)
      simp [delQKids, delQPlaced, phSum_map_fst, phSum_nil, phSum_append, hq, h1]
  · -- textQ = false, tailQ = true, flag = false
    have hkp : kidsPlaced = false := by
      cases kidsPlaced
      · rfl
      · exact absurd (hkf rfl) (by decide)
    subst hkp
    simp at hkc
    simp [delQKids, delQPlaced, phSum_map_fst, phSum_nil, phSum_append]
    omega
  · -- textQ = false, tailQ = true, flag = true
    by_cases hq : kids.all (fun p => !p.2)
    · simp [delQKids, delQPlaced, phSum_map_fst, phSum_nil, phSum_append, phSum_cons,
        hq, List.filter_append, phPairs_append, hscf, phCountE_placeholderE,
        phPairs_cons]
    · simp only [Bool.not_eq_true] at hq
      have h1 := insPhQ_filter_count (scrubPairs kids) hsc
        (by rw [scrubPairs_all_snd]; exact hq)
      simp [delQKids, delQPlaced, phSum_map_fst, phSum_nil, phSum_append, hq, h1]
  · -- textQ = true, tailQ = false, flag = false
    have hkp : kidsPlaced = false := by
      cases kidsPlaced
      · rfl
      · exact absurd (hkf rfl) (by decide)
    subst hkp
    simp at hkc
    simp [delQKids, delQPlaced, phSum_map_fst, phSum_nil, phSum_append]
    omega
  · -- textQ = true, tailQ = false, flag = true
    have hkp : kidsPlaced = false := by
      cases kidsPlaced
      · rfl
      · exact absurd (hkf rfl) (by decide)
    subst hkp
    simp at hkc
    simp [delQKids, delQPlaced, phSum_map_fst, phSum_nil, phSum_append, phSum_cons,
      phCountE_placeholderE]
    omega
  · -- textQ = true, tailQ = true, flag = false
    have hkp : kidsPlaced = false := by
      cases kidsPlaced
      · rfl
      · exact absurd (hkf rfl) (by decide)
    subst hkp
    simp at hkc
    simp [delQKids, delQPlaced, phSum_map_fst, phSum_nil, phSum_append]
    omega
  · -- textQ = true, tailQ = true, flag = true
    have hkp : kidsPlaced = false := by
      cases kidsPlaced
      · rfl
      · exact absurd (hkf rfl) (by decide)
    subst hkp
    simp at hkc
    simp [delQKids, delQPlaced, phSum_map_fst, phSum_nil, phSum_append, phSum_cons,
      phCountE_placeholderE]
    omega

theorem delQNode_fst (b : Bool) (text tl : Option String) (tQ tlQ fl kp : Bool)
    (kids : List (Elem × Bool)) (c3 : Nat) :
    (delQNode b text tl tQ tlQ fl kp kids c3).1
      = Elem.mk b (if tQ then some "" else text) (toEL (delQKids tQ tlQ fl kids))
          (if tlQ then some "" else tl) := rfl

theorem delQNode_c (b : Bool) (text tl : Option String) (tQ tlQ fl kp : Bool)
    (kids : List (Elem × Bool)) (c3 : Nat) :
    (delQNode b text tl tQ tlQ fl kp kids c3).2.1 = c3 := rfl

theorem delQNode_placedEq (b : Bool) (text tl : Option String) (tQ tlQ fl kp : Bool)
    (kids : List (Elem × Bool)) (c3 : Nat) :
    (delQNode b text tl tQ tlQ fl kp kids c3).2.2.2 = delQPlaced tQ tlQ fl kp kids := rfl

theorem phCountE_mk_false (t u : Option String) (l : List Elem) :
    phCountE (.mk false t (toEL l) u) = phSum l := by
  show (if false then 1 else 0) + phCountL (toEL l) = phSum l
  rw [phCountL_toEL]
  simp

theorem phCountE_mk_zero (b : Bool) (t : Option String) (cs : ElemList)
    (tl : Option String) (h : phCountE (.mk b t cs tl) = 0) :
    b = false ∧ phCountL cs = 0 := by
  cases b
  · refine ⟨rfl, ?_⟩
    have h2 : (if false then 1 else 0) + phCountL cs = 0 := h
    omega
  · exact absurd h (by simp [phCountE])

mutual
theorem delQ_spec : ∀ (e : Elem) (cps : List Bool) (c : Nat) (flag : Bool),
    phCountE e = 0 →
    (delQ cps e c flag).2.1 = c + 2 * Elem.size e
    ∧ Elem.isPh (delQ cps e c flag).1 = false
    ∧ ((delQ cps e c flag).2.2.2 = true → flag = true)
    ∧ phCountE (delQ cps e c flag).1
        = (if (delQ cps e c flag).2.2.2 then 1 else 0)
    ∧ (flag = true → ∀ i, i < 2 * Elem.size e → cps.getD (c + i) false = true →
        (delQ cps e c flag).2.2.2 = true)
  | .mk b text cs tail => by
    intro cps c flag h0
    obtain ⟨hb, hcs⟩ := phCountE_mk_zero b text cs tail h0
    subst hb
    obtain ⟨ihc, ihp, ihf, ihn, ihg⟩ :=
      delQList_spec cs cps (c + 1) (flag && !(cps.getD c false)) hcs
    set r := delQList cps cs (c + 1) (flag && !(cps.getD c false)) with hr
    have hunf : delQ cps (Elem.mk false text cs tail) c flag
        = delQNode false text tail (cps.getD c false) (cps.getD r.2.1 false) flag
            r.2.2 r.1 (r.2.1 + 1) := by rw [hr]; exact rfl
    have hs : Elem.size (Elem.mk false text cs tail) = 1 + ElemList.size cs := rfl
    refine ⟨?_, ?_, ?_, ?_, ?_⟩
    · rw [hunf, delQNode_c, hs, ihc]
      ring
    · rw [hunf, delQNode_fst]
      rfl
    · intro h
      rw [hunf, delQNode_placedEq] at h
      refine delQPlaced_flag _ _ _ _ _ (fun hkp => ?_) h
      have h2 := ihf hkp
      rw [Bool.and_eq_true] at h2
      exact h2.1
    · rw [hunf, delQNode_fst, delQNode_placedEq, phCountE_mk_false]
      exact delQKids_phSum _ _ _ _ _ ihn ihp ihf
    · intro hflag i hi hcp
      rw [hunf, delQNode_placedEq]
      have hi' : i < 2 * (1 + ElemList.size cs) := by rw [hs] at hi; exact hi
      by_cases hT : cps.getD c false = true
      · rw [hT]
        exact delQPlaced_textQ _ _ _ _ hflag
      · have hTf : cps.getD c false = false := by simpa using hT
        have hflag1 : (flag && !(cps.getD c false)) = true := by rw [hflag, hTf]; rfl
        by_cases hi0 : i = 0
        · exfalso
          have hc0 : cps.getD c false = true := by
            have h2 : cps.getD (c + 0) false = true := by rw [← hi0]; exact hcp
            simpa using h2
          rw [hTf] at hc0
          exact Bool.noConfusion hc0
        · by_cases hiT : i = 2 * ElemList.size cs + 1
          · have hT2 : cps.getD r.2.1 false = true := by
              have harith : r.2.1 = c + i := by rw [ihc, hiT]; ring
              rw [harith]
              exact hcp
            rw [hTf, hT2]
            exact delQPlaced_tail _ _ _ hflag
          · have h2i : i - 1 < 2 * ElemList.size cs := by omega
            have hcp2 : cps.getD ((c + 1) + (i - 1)) false = true := by
              have harith : (c + 1) + (i - 1) = c + i := by omega
              rw [harith]
              exact hcp
            have hkp := ihg hflag1 (i - 1) h2i hcp2
            rw [hkp]
            exact delQPlaced_kp _ _ _ _
theorem delQList_spec : ∀ (es : ElemList) (cps : List Bool) (c : Nat) (flag : Bool),
    phCountL es = 0 →
    (delQList cps es c flag).2.1 = c + 2 * ElemList.size es
    ∧ (∀ p ∈ (delQList cps es c flag).1, Elem.isPh p.1 = false)
    ∧ ((delQList cps es c flag).2.2 = true → flag = true)
    ∧ phPairs (delQList cps es c flag).1
        = (if (delQList cps es c flag).2.2 then 1 else 0)
    ∧ (flag = true → ∀ i, i < 2 * ElemList.size es → cps.getD (c + i) false = true →
        (delQList cps es c flag).2.2 = true)
  | .nil => by
    intro cps c flag h0
    refine ⟨rfl, ?_, ?_, rfl, ?_⟩
    · intro p hp
      exact absurd hp (by simp [delQList])
    · intro h
      exact Bool.noConfusion h
    · intro hflag i hi hcp
      exact absurd hi (by simp [ElemList.size])
  | .cons e es => by
    intro cps c flag h0
    have hsplit : phCountE e + phCountL es = 0 := h0
    have he : phCountE e = 0 := by omega
    have hes : phCountL es = 0 := by omega
    obtain ⟨ihc1, ihp1, ihf1, ihn1, ihg1⟩ := delQ_spec e cps c flag he
    set re := delQ cps e c flag with hre
    obtain ⟨ihc2, ihp2, ihf2, ihn2, ihg2⟩ := delQList_spec es cps re.2.1 flag hes
    set rest := delQList cps es re.2.1 flag with hrest
    have hunf : delQList cps (.cons e es) c flag
        = ((if rest.2.2 then scrubE re.1 else re.1, re.2.2.1) :: rest.1, rest.2.1,
            re.2.2.2 || rest.2.2) := by rw [hrest, hre]; exact rfl
    have hsz : ElemList.size (.cons e es) = Elem.size e + ElemList.size es := rfl
    refine ⟨?_, ?_, ?_, ?_, ?_⟩
    · rw [hunf, hsz]
      show rest.2.1 = c + 2 * (Elem.size e + ElemList.size es)
      rw [ihc2, ihc1]
      ring
    · rw [hunf]
      intro p hp
      rcases List.mem_cons.mp hp with h1 | h2
      · subst h1
        show Elem.isPh (if rest.2.2 then scrubE re.1 else re.1) = false
        by_cases hb : rest.2.2 = true
        · rw [if_pos hb, isPh_scrubE]
          exact ihp1
        · rw [if_neg hb]
          exact ihp1
      · exact ihp2 p h2
    · intro h
      rw [hunf] at h
      have h2 : (re.2.2.2 || rest.2.2) = true := h
      rw [Bool.or_eq_true] at h2
      rcases h2 with h3 | h3
      · exact ihf1 h3
      · exact ihf2 h3
    · rw [hunf]
      show phPairs ((if rest.2.2 then scrubE re.1 else re.1, re.2.2.1) :: rest.1)
          = if (re.2.2.2 || rest.2.2) then 1 else 0
      rw [phPairs_cons]
      by_cases hrp : rest.2.2 = true
      · rw [if_pos hrp]
        show phCountE (scrubE re.1) + phPairs rest.1 = _
        rw [phCountE_scrubE, ihp1, ihn2]
        simp [hrp]
      · rw [if_neg hrp]
        show phCountE re.1 + phPairs rest.1 = _
        rw [ihn1, ihn2]
        simp only [Bool.not_eq_true] at hrp
        simp [hrp]
    · intro hflag i hi hcp
      rw [hunf]
      show (re.2.2.2 || rest.2.2) = true
      have hi' : i < 2 * (Elem.size e + ElemList.size es) := by rw [hsz] at hi; exact hi
      by_cases hlt : i < 2 * Elem.size e
      · have h1 := ihg1 hflag i hlt hcp
        simp [h1]
      · have h2i : i - 2 * Elem.size e < 2 * ElemList.size es := by omega
        have hcp2 : cps.getD (re.2.1 + (i - 2 * Elem.size e)) false = true := by
          have harith : re.2.1 + (i - 2 * Elem.size e) = c + i := by rw [ihc1]; omega
          rw [harith]
          exact hcp
        have h1 := ihg2 hflag _ h2i hcp2
        simp [h1]
end

/-- C8: for every tree with K nodes and every starting counter c,
add_checkpoint returns c + 2K, the tree has exactly 2K text/tail fields in
DFS event order, and the checkpointed tree's fields are exactly the original
fields stamped with the consecutive integers c, c+1, ..., c+2K-1 in that
order — so re-traversing in the same order recovers the node and enter/exit
event of each id. -/
theorem talon_C8_checkpoint_bijection (e : Elem) (c : Nat) :
    (add_checkpoint e c).2 = c + 2 * Elem.size e
    ∧ (Elem.flatTexts e).length = 2 * Elem.size e
    ∧ Elem.flatTexts (add_checkpoint e c).1
        = List.zipWith addTok (Elem.flatTexts e) (List.range' c (2 * Elem.size e)) :=
  ⟨add_checkpoint_counter e c, flatTextsLenE e, add_checkpoint_flatTexts e c⟩

/-- C9 (amended): for a placeholder-free tree, delete_quotation_tags with a
placeholder leaves at most one placeholder instance in the result, exactly
one when some checkpoint in range is flagged, and none when no placeholder
is supplied. The claim's position part — that the instance sits at the
earliest removed boundary — is refuted by talon_C9_counterexample: the
placeholder ends at the last insertion point. -/
theorem talon_C9_placeholder_uniqueness (e : Elem) (cps : List Bool)
    (hnp : phCountE e = 0) :
    phCountE (delete_quotation_tags e cps true) ≤ 1
    ∧ ((∃ i, i < 2 * Elem.size e ∧ cps.getD i false = true) →
        phCountE (delete_quotation_tags e cps true) = 1)
    ∧ phCountE (delete_quotation_tags e cps false) = 0 := by
  obtain ⟨hc, hp, hf, hn, hg⟩ := delQ_spec e cps 0 true hnp
  obtain ⟨hc2, hp2, hf2, hn2, hg2⟩ := delQ_spec e cps 0 false hnp
  refine ⟨?_, ?_, ?_⟩
  · show phCountE (delQ cps e 0 true).1 ≤ 1
    rw [hn]
    by_cases h : (delQ cps e 0 true).2.2.2 = true <;> simp [h]
  · rintro ⟨i, hi, hcp⟩
    show phCountE (delQ cps e 0 true).1 = 1
    rw [hn, hg rfl i hi (by rw [Nat.zero_add]; exact hcp)]
    rfl
  · show phCountE (delQ cps e 0 false).1 = 0
    rw [hn2]
    have hpl : (delQ cps e 0 false).2.2.2 = false := by
      cases hq : (delQ cps e 0 false).2.2.2
      · rfl
      · exact absurd (hf2 hq) (by decide)
    rw [hpl]
    rfl

/-- Witness for C9 at the concrete five-node tree: the hypothesis (no
pre-existing placeholder) and the flagged-checkpoint condition are
discharged by evaluation. -/
theorem talon_C9_placeholder_uniqueness_witness :
    phCountE ceR9 = 0
    ∧ phCountE (delete_quotation_tags ceR9 ceCps9 true) = 1 :=
  ⟨by decide, (talon_C9_placeholder_uniqueness ceR9 ceCps9 (by decide)).2.1
      ⟨2, by decide, by decide⟩⟩

/-- Counterexample for C9's position clause: ceA9 (inside ceX9) is the
earliest removed node and carries the earliest flagged checkpoint, yet the
placeholder ends up inside ceY9, at the position of the LAST removed node
ceB9 — because each later insertion moves the single placeholder element,
and Python never tells the caller an insertion already happened. -/
theorem talon_C9_counterexample :
    delete_quotation_tags ceR9 ceCps9 true
      = Elem.mk false (some "r")
          (.cons (.mk false (some "x") .nil (some "tx"))
            (.cons (.mk false (some "y") (.cons placeholderE .nil) (some "ty")) .nil))
          none
    ∧ delete_quotation_tags ceR9 ceCps9 true
      ≠ Elem.mk false (some "r")
          (.cons (.mk false (some "x") (.cons placeholderE .nil) (some "tx"))
            (.cons (.mk false (some "y") .nil (some "ty")) .nil))
          none :=
  ⟨by decide, by decide⟩

end Talon
